import Mathlib

/-!
Verification of the AutoDev Studio orchestration core against its
natural-language specification.

The definitions below are shallow embeddings of the TypeScript sources:
  * `LogStreamer.poll`              (services/logStreamer.ts)
  * `ClaudeCodeRunner.run`          (services/claudeCodeRunner.ts)
  * `renderTemplate`                (services/templateEngine.ts)
  * `GitManager.createWorktree`     (services/gitManager.ts)
  * `Orchestrator` (queue, tick loop, enqueue, cancel, finishWorker,
    runExecutePhase)                (services/orchestrator.ts)
  * the SQLite-backed stores        (services/database.ts)
  * `recoverInterruptedJobs`        (extension.ts)

Text is modelled as `List Char` (the log files and process output are
treated byte-per-char, which is faithful for the ASCII data handled by the
line splitters).  Stateful code is modelled by explicit state passing; the
asynchronous worker tasks are modelled at the granularity of their
synchronous sections (each operation of the orchestrator model performs
exactly the synchronous writes the source performs).
-/

namespace AutoDev


/-! ## Generic association-list helpers (JS `Map` semantics). -/

/-- Lookup by key, first match (JS `Map.get`). -/
def alookup {α : Type} : List (String × α) → String → Option α
  | [], _ => none
  | (k, v) :: rest, key => if k = key then some v else alookup rest key

/-- Insert-or-replace by key, preserving position (JS `Map.set`). -/
def aset {α : Type} : List (String × α) → String → α → List (String × α)
  | [], k, v => [(k, v)]
  | (k', v') :: rest, k, v => if k' = k then (k, v) :: rest else (k', v') :: aset rest k v

/-- Delete by key, first match (JS `Map.delete`). -/
def aerase {α : Type} : List (String × α) → String → List (String × α)
  | [], _ => []
  | (k', v') :: rest, k => if k' = k then rest else (k', v') :: aerase rest k

/-- Remove the first occurrence of a string from a list. -/
def eraseStr : List String → String → List String
  | [], _ => []
  | x :: rest, y => if x = y then rest else x :: eraseStr rest y

/-- Remove the first occurrence of a natural number from a list. -/
def eraseNat : List Nat → Nat → List Nat
  | [], _ => []
  | x :: rest, y => if x = y then rest else x :: eraseNat rest y

/-- Add an element if it is not already present (JS `Map.set` on a fresh key;
used for the runner process table and the log-streamer watcher table). -/
def addUnique {α : Type} [DecidableEq α] (l : List α) (x : α) : List α :=
  if x ∈ l then l else l ++ [x]

/-! ## Newline splitting (`String.prototype.split('\n')` semantics).

Both the log tailer and the subprocess runner split chunks of text on
`'\n'`.  `splitNl` mirrors the JS `split`: it always returns at least one
part, the parts do not contain `'\n'`, and joining them back with `'\n'`
restores the input. -/

/-- JS `text.split('\n')` on `List Char`. -/
def splitNl : List Char → List (List Char)
  | [] => [[]]
  | c :: rest =>
    if c = '\n' then [] :: splitNl rest
    else
      match splitNl rest with
      | [] => [[c]]
      | h :: t => (c :: h) :: t

/-- Join parts with `'\n'` (inverse of `splitNl`). -/
def joinNl : List (List Char) → List Char
  | [] => []
  | [x] => x
  | x :: y :: l => x ++ '\n' :: joinNl (y :: l)

/-- The `'\n'`-terminated (complete) lines of a text. -/
def termLines (s : List Char) : List (List Char) :=
  (splitNl s).dropLast

/-- The trailing part after the last `'\n'` (empty iff the text is empty or
ends with a newline). -/
def lastPart (s : List Char) : List Char :=
  (splitNl s).getLastD []

/-! ## Log tailer (`LogStreamer.poll`, services/logStreamer.ts).

The watcher state per job is a byte offset into the log file.  Each poll
reads the bytes appended since the offset, splits them on `'\n'`, emits the
non-empty complete lines (`if (line) { emit ... }` skips empty ones), and
rolls the offset back over any trailing partial line so it is re-read once
completed.  The file is modelled as the list of bytes appended so far. -/

/-- One `LogStreamer.poll` step: given the current file `content` and the
watcher `offset`, returns the new offset and the lines emitted. -/
def pollStep (content : List Char) (offset : Nat) : Nat × List (List Char) :=
  if content.length ≤ offset then (offset, [])
  else
    let chunk := content.drop offset
    let parts := splitNl chunk
    let emitted := parts.dropLast.filter (fun l => l ≠ [])
    let lastP := parts.getLastD []
    let offset' := if lastP = [] then content.length else content.length - lastP.length
    (offset', emitted)

/-- Events affecting a watched log file: an append of raw bytes by the
worker process, or one timer poll of the streamer. -/
inductive LogEv
  | app (bytes : List Char)
  | poll

/-- Watcher state: file content so far, byte offset, all lines emitted. -/
structure LogState where
  content : List Char
  offset : Nat
  emitted : List (List Char)

def logStep (s : LogState) : LogEv → LogState
  | .app bs => { s with content := s.content ++ bs }
  | .poll =>
    let r := pollStep s.content s.offset
    { s with offset := r.1, emitted := s.emitted ++ r.2 }

def runLog (evs : List LogEv) : LogState :=
  evs.foldl logStep ⟨[], 0, []⟩

/-- Tailer invariant: the offset sits at a line boundary (the prefix read so
far is newline-closed) and the emitted lines are exactly the non-empty
complete lines of that prefix. -/
def LogInv (s : LogState) : Prop :=
  s.offset ≤ s.content.length ∧
  lastPart (s.content.take s.offset) = [] ∧
  s.emitted = (termLines (s.content.take s.offset)).filter (fun l => l ≠ [])

/-! ## Subprocess runner line splitting (`ClaudeCodeRunner.run`,
services/claudeCodeRunner.ts).

`handleData` concatenates each incoming chunk onto a line buffer, splits on
`'\n'`, delivers the non-empty complete lines to `onLine`
(`if (line && options.onLine)` skips empty ones), and keeps the trailing
part in the buffer.  On `close`, a non-empty remaining buffer is delivered
once.  `outputBuffer` accumulates every chunk verbatim. -/

/-- One `handleData` call: returns the new line buffer and the lines
delivered to `onLine` for this chunk. -/
def handleData (buf chunk : List Char) : List Char × List (List Char) :=
  let text := buf ++ chunk
  let parts := splitNl text
  (parts.getLastD [], parts.dropLast.filter (fun l => l ≠ []))

/-- The `close` handler: flush a non-empty trailing line buffer. -/
def closeFlush (buf : List Char) : List (List Char) :=
  if buf = [] then [] else [buf]

/-- Runner stream state: line buffer, lines delivered so far, and the
accumulated output buffer. -/
structure RunnerState where
  lineBuffer : List Char
  delivered : List (List Char)
  outputBuffer : List Char

def runnerStep (s : RunnerState) (chunk : List Char) : RunnerState :=
  let r := handleData s.lineBuffer chunk
  { lineBuffer := r.1, delivered := s.delivered ++ r.2,
    outputBuffer := s.outputBuffer ++ chunk }

/-- Processes a whole sequence of stdout/stderr chunks and the final close
event; returns all lines delivered to `onLine` (in order) and the resolved
output buffer. -/
def runnerRun (chunks : List (List Char)) : List (List Char) × List Char :=
  let s := chunks.foldl runnerStep ⟨[], [], []⟩
  (s.delivered ++ closeFlush s.lineBuffer, s.outputBuffer)

/-- Runner invariant: the buffer holds the trailing open line of everything
received, delivery covers exactly the non-empty complete lines, and the
output buffer is the verbatim concatenation. -/
def RunnerInv (s : RunnerState) : Prop :=
  s.lineBuffer = lastPart s.outputBuffer ∧
  s.delivered = (termLines s.outputBuffer).filter (fun l => l ≠ [])

/-! ## Template renderer (`renderTemplate`, services/templateEngine.ts).

`renderTemplate` first resolves the two conditional blocks
(`\x7b\x7b#CONTEXT_FILES\x7d\x7d ... \x7b\x7b/CONTEXT_FILES\x7d\x7d` and the
`ATTACHMENTS` pair), then applies the eight unconditional token
substitutions in insertion order of the JS object, and finally trims the
result.  `replaceAll` mirrors `String.prototype.replaceAll` (leftmost,
non-overlapping, replacement text not rescanned); the conditional-block
regex `open([\s\S]*?)close` with the global flag is mirrored by repeatedly
locating the first open tag and the first close tag after it. -/

/-- Bool test: does `pat` start `s`? -/
def startsWithL : List Char → List Char → Bool
  | [], _ => true
  | _ :: _, [] => false
  | p :: ps, c :: cs => p == c && startsWithL ps cs

/-- Bool test: does `pat` occur anywhere in `s`? -/
def hasSub : List Char → List Char → Bool
  | [], pat => pat.isEmpty
  | c :: rest, pat => startsWithL pat (c :: rest) || hasSub rest pat

/-- The body of JS `replaceAll` for a non-empty pattern, fuel-indexed
(every step consumes at least one character of the text, so `s.length`
fuel always suffices): leftmost, non-overlapping, replacement text not
rescanned. -/
def replaceAllGo (p : Char) (ps rep : List Char) : Nat → List Char → List Char
  | _, [] => []
  | 0, s => s
  | fuel + 1, c :: rest =>
    if startsWithL (p :: ps) (c :: rest) then
      rep ++ replaceAllGo p ps rep fuel (rest.drop ps.length)
    else
      c :: replaceAllGo p ps rep fuel rest

/-- JS `s.replaceAll(pat, rep)` (the patterns used by the renderer are
never empty; an empty pattern is returned unchanged). -/
def replaceAll (s pat rep : List Char) : List Char :=
  match pat with
  | [] => s
  | p :: ps => replaceAllGo p ps rep s.length s

/-- Locate the first occurrence of a (non-empty) pattern: returns the text
before it and the text after it. -/
def splitFirstNE (p : Char) (ps : List Char) : List Char → Option (List Char × List Char)
  | [] => none
  | c :: rest =>
    if startsWithL (p :: ps) (c :: rest) then some ([], rest.drop ps.length)
    else
      match splitFirstNE p ps rest with
      | none => none
      | some (b, a) => some (c :: b, a)

/-- One conditional tag pair, fuel-indexed recursion (each step strictly
shortens the remaining text, so `s.length` fuel always suffices):
repeatedly resolve `open ... close` blocks, keeping the inner content when
`inc` is set and deleting the whole block otherwise (global lazy regex
semantics). -/
def renderCondGo (o : Char) (os : List Char) (c0 : Char) (cs : List Char) (inc : Bool) :
    Nat → List Char → List Char
  | 0, s => s
  | fuel + 1, s =>
    match splitFirstNE o os s with
    | none => s
    | some (pre, rest1) =>
      match splitFirstNE c0 cs rest1 with
      | none => s
      | some (inner, rest2) =>
        pre ++ (if inc then inner else []) ++ renderCondGo o os c0 cs inc fuel rest2

def renderCondNE (o : Char) (os : List Char) (c0 : Char) (cs : List Char) (inc : Bool)
    (s : List Char) : List Char :=
  renderCondGo o os c0 cs inc s.length s

/-- The `\x7b\x7b#TAG\x7d\x7d` opening marker of a conditional block. -/
def openTagOf (tag : List Char) : List Char :=
  '\x7b' :: '\x7b' :: '#' :: (tag ++ ['\x7d', '\x7d'])

/-- The `\x7b\x7b/TAG\x7d\x7d` closing marker of a conditional block. -/
def closeTagOf (tag : List Char) : List Char :=
  '\x7b' :: '\x7b' :: '/' :: (tag ++ ['\x7d', '\x7d'])

/-- `renderConditionalBlock(template, tag, include)`. -/
def renderCondBlock (s : List Char) (tag : List Char) (inc : Bool) : List Char :=
  renderCondNE '\x7b' ('\x7b' :: '#' :: (tag ++ ['\x7d', '\x7d']))
    '\x7b' ('\x7b' :: '/' :: (tag ++ ['\x7d', '\x7d'])) inc s

/-! Whitespace trimming (`String.prototype.trim`). -/

def isWsChar (c : Char) : Bool :=
  c == ' ' || c == '\t' || c == '\n' || c == '\r' || c == '\x0b' || c == '\x0c'

def trimChars (s : List Char) : List Char :=
  ((s.dropWhile isWsChar).reverse.dropWhile isWsChar).reverse

/-! The template context and the renderer itself. -/

/-- `TemplateContext` (types/template.ts): the variables available for
interpolation.  Optional fields model the `string | undefined` TS fields. -/
structure TemplateContext where
  ticketTitle : List Char
  ticketDescription : List Char
  projectName : List Char
  autoDetectedStack : List Char
  testCommand : List Char
  buildCommand : List Char
  contextFiles : Option (List Char) := none
  attachmentDescriptions : Option (List Char) := none

/-- JS truthiness of an optional string (`!!value`): absent and empty are
both falsy. -/
def truthyOptStr (o : Option (List Char)) : Bool :=
  match o with
  | none => false
  | some s => !s.isEmpty

/-- `value || '(not configured)'`. -/
def orNotConfigured (v : List Char) : List Char :=
  if v.isEmpty then "(not configured)".data else v

def tokTicketTitle : List Char := "\x7b\x7bTICKET_TITLE\x7d\x7d".data

def tokTicketDescription : List Char := "\x7b\x7bTICKET_DESCRIPTION\x7d\x7d".data

def tokProjectName : List Char := "\x7b\x7bPROJECT_NAME\x7d\x7d".data

def tokAutoDetectedStack : List Char := "\x7b\x7bAUTO_DETECTED_STACK\x7d\x7d".data

def tokTestCommand : List Char := "\x7b\x7bTEST_COMMAND\x7d\x7d".data

def tokBuildCommand : List Char := "\x7b\x7bBUILD_COMMAND\x7d\x7d".data

def tokContextFiles : List Char := "\x7b\x7bCONTEXT_FILES\x7d\x7d".data

def tokAttachmentDescriptions : List Char := "\x7b\x7bATTACHMENT_DESCRIPTIONS\x7d\x7d".data

/-- The substitution table, in the insertion order of the JS object
literal. -/
def substitutions (ctx : TemplateContext) : List (List Char × List Char) :=
  [(tokTicketTitle, ctx.ticketTitle),
   (tokTicketDescription, ctx.ticketDescription),
   (tokProjectName, ctx.projectName),
   (tokAutoDetectedStack, ctx.autoDetectedStack),
   (tokTestCommand, orNotConfigured ctx.testCommand),
   (tokBuildCommand, orNotConfigured ctx.buildCommand),
   (tokContextFiles, ctx.contextFiles.getD []),
   (tokAttachmentDescriptions, ctx.attachmentDescriptions.getD [])]

/-- `renderTemplate(template, ctx)`: conditional blocks, then token
substitution, then trim. -/
def renderTemplate (template : List Char) (ctx : TemplateContext) : List Char :=
  let r1 := renderCondBlock template "CONTEXT_FILES".data (truthyOptStr ctx.contextFiles)
  let r2 := renderCondBlock r1 "ATTACHMENTS".data (truthyOptStr ctx.attachmentDescriptions)
  trimChars ((substitutions ctx).foldl (fun acc tv => replaceAll acc tv.1 tv.2) r2)

/-! ## Workspace manager (`GitManager.createWorktree`, services/gitManager.ts)
and the branch naming used by the orchestrator. -/

/-- `slugify(title)` (orchestrator.ts): lowercase, strip characters outside
`[a-z0-9\s-]`, trim, collapse whitespace runs to single dashes, cut to 50. -/
def slugKeep (c : Char) : Bool :=
  ('a' ≤ c && c ≤ 'z') || ('0' ≤ c && c ≤ '9') || isWsChar c || c == '-'

def collapseWsDash : List Char → Bool → List Char
  | [], _ => []
  | c :: rest, prevWs =>
    if isWsChar c then
      if prevWs then collapseWsDash rest true
      else '-' :: collapseWsDash rest true
    else c :: collapseWsDash rest false

def slugify (title : List Char) : List Char :=
  (collapseWsDash (trimChars ((title.map Char.toLower).filter slugKeep)) false).take 50

/-- The branch name the orchestrator derives for a ticket
(`branchPrefix + "ticket-" + ticket.id + "-" + slug`). -/
def branchFor (branchPref : List Char) (ticketId : List Char) (title : List Char) :
    List Char :=
  branchPref ++ "ticket-".data ++ ticketId ++ ['-'] ++ slugify title

/-- The deterministic worktree path: `worktreeRoot + "/ticket-" + ticketId`. -/
def worktreePathOf (worktreeRoot ticketId : List Char) : List Char :=
  worktreeRoot ++ "/ticket-".data ++ ticketId

/-- The git state visible to `createWorktree`: which worktree directories
exist and which branches have been created. -/
structure GitFs where
  worktrees : List (List Char)
  branches : List (List Char)
deriving DecidableEq

/-- `GitManager.createWorktree(worktreeRoot, ticketId, slug, defaultBranch,
branchPrefix)`: if the deterministic path already exists it is returned
unchanged (reuse after a crash or a re-execution); otherwise
`git worktree add <path> -b <branch> <defaultBranch>` creates the directory
and the branch. -/
def createWorktree (fs : GitFs) (worktreeRoot ticketId slug _defaultBranch
    branchPref : List Char) : List Char × GitFs :=
  let branch := branchPref ++ "ticket-".data ++ ticketId ++ ['-'] ++ slug
  let wp := worktreePathOf worktreeRoot ticketId
  if wp ∈ fs.worktrees then (wp, fs)
  else (wp, { worktrees := wp :: fs.worktrees, branches := branch :: fs.branches })

/-! ## Data model (types/ticket.ts, types/job.ts, types/project.ts).

Ids of projects and tickets are opaque UUID strings; job ids are modelled
by a counter (the source draws them from `randomUUID`, whose only relevant
property is freshness).  `Date` values are modelled by presence
(`Option Unit`), which is all the orchestrator logic inspects. -/

inductive TicketStatus
  | backlog | planning | plan_review | queued | in_progress
  | testing | completed | failed | merged
deriving DecidableEq, Repr

inductive JobPhase
  | plan | execute | fix
deriving DecidableEq, Repr

inductive JobStatus
  | pending | running | completed | failed
deriving DecidableEq, Repr

inductive PlanType
  | prd | simple_plan | analysis | bug_fix | test | direct | refactor
deriving DecidableEq, Repr

structure TicketMetadata where
  filesChanged : Option (List String) := none
  testsPassed : Option Bool := none
  retryCount : Option Nat := none
deriving DecidableEq, Repr

structure ProjectSettings where
  maxParallelJobs : Nat
  autoExecuteAfterPlan : Bool := false
  testCommand : Option String := none
  buildCommand : Option String := none
  lintCommand : Option String := none
deriving DecidableEq, Repr

structure Project where
  id : String
  name : String := ""
  repoPath : String := ""
  defaultBranch : String := "main"
  worktreeRoot : String := ""
  settings : ProjectSettings
deriving DecidableEq, Repr

structure Ticket where
  id : String
  projectId : String
  title : String := ""
  description : String := ""
  status : TicketStatus := .backlog
  planType : PlanType := .simple_plan
  plan : Option String := none
  branch : Option String := none
  worktreePath : Option String := none
  error : Option String := none
  metadata : TicketMetadata := {}
  startedAt : Option Unit := none
  completedAt : Option Unit := none
deriving DecidableEq, Repr

structure ExecutionJob where
  id : Nat
  ticketId : String
  phase : JobPhase
  status : JobStatus := .pending
  logPath : String := ""
  exitCode : Option Int := none
  retryCount : Nat := 0
  startedAt : Option Unit := none
  completedAt : Option Unit := none
deriving DecidableEq, Repr

/-- A job is *active* when it is pending or running (§3 of the spec). -/
def jobActive (j : ExecutionJob) : Prop :=
  j.status = .pending ∨ j.status = .running

instance (j : ExecutionJob) : Decidable (jobActive j) := by
  unfold jobActive
  infer_instance

/-! ## Persistent store (services/database.ts).

Projects and tickets are keyed rows; jobs are append-only rows updated by
primary key.  `updateStatus` keeps `started_at` via `COALESCE`, and
*overwrites* `completed_at` and `error` with the supplied values (NULL when
absent). -/

structure Db where
  projects : List (String × Project)
  tickets : List (String × Ticket)
  jobs : List ExecutionJob
deriving DecidableEq, Repr

def Db.findProject (db : Db) (pid : String) : Option Project :=
  alookup db.projects pid

def Db.findTicket (db : Db) (tid : String) : Option Ticket :=
  alookup db.tickets tid

/-- `TicketStore.updateStatus` row transformation. -/
def applyTicketStatus (t : Ticket) (st : TicketStatus) (startedAt completedAt : Option Unit)
    (err : Option String) : Ticket :=
  { t with status := st,
           startedAt := match startedAt with | some d => some d | none => t.startedAt,
           completedAt := completedAt,
           error := err }

def Db.updateTicketStatus (db : Db) (tid : String) (st : TicketStatus)
    (startedAt completedAt : Option Unit) (err : Option String) : Db :=
  { db with tickets := db.tickets.map (fun kt =>
      if kt.1 = tid then (kt.1, applyTicketStatus kt.2 st startedAt completedAt err)
      else kt) }

def Db.updateTicketBranch (db : Db) (tid : String) (branch worktreePath : String) : Db :=
  { db with tickets := db.tickets.map (fun kt =>
      if kt.1 = tid then (kt.1, { kt.2 with branch := some branch,
                                            worktreePath := some worktreePath })
      else kt) }

def Db.updateTicketPlan (db : Db) (tid : String) (plan : String) : Db :=
  { db with tickets := db.tickets.map (fun kt =>
      if kt.1 = tid then (kt.1, { kt.2 with plan := some plan }) else kt) }

def Db.setTicketMetadata (db : Db) (tid : String) (m : TicketMetadata) : Db :=
  { db with tickets := db.tickets.map (fun kt =>
      if kt.1 = tid then (kt.1, { kt.2 with metadata := m }) else kt) }

/-- `JobStore.create`: inserts a fresh `pending` job row. -/
def Db.createJob (db : Db) (jid : Nat) (tid : String) (ph : JobPhase) (logPath : String) :
    ExecutionJob × Db :=
  let j : ExecutionJob := { id := jid, ticketId := tid, phase := ph, logPath := logPath }
  (j, { db with jobs := db.jobs ++ [j] })

/-- `JobStore.updateStatus` row transformation (`COALESCE` on `started_at`,
overwrite on `completed_at` and `exit_code`). -/
def applyJobStatus (j : ExecutionJob) (st : JobStatus) (startedAt completedAt : Option Unit)
    (exitCode : Option Int) : ExecutionJob :=
  { j with status := st,
           startedAt := match startedAt with | some d => some d | none => j.startedAt,
           completedAt := completedAt,
           exitCode := exitCode }

def Db.updateJobStatus (db : Db) (jid : Nat) (st : JobStatus)
    (startedAt completedAt : Option Unit) (exitCode : Option Int) : Db :=
  { db with jobs := db.jobs.map (fun j =>
      if j.id = jid then applyJobStatus j st startedAt completedAt exitCode else j) }

/-- `JobStore.incrementRetry`. -/
def Db.incrementRetry (db : Db) (jid : Nat) : Db :=
  { db with jobs := db.jobs.map (fun j =>
      if j.id = jid then { j with retryCount := j.retryCount + 1 } else j) }

/-! ## Orchestrator (services/orchestrator.ts).

The orchestrator owns the job queue and the active-worker map (keyed by
ticket id).  Asynchronous worker tasks are modelled at the granularity of
their synchronous sections:

  * `Op.enqueuePlan` / `Op.enqueueExecute` — the public enqueue API
    (create job, transition ticket, emit, push, tick);
  * `Op.tick` — one scheduling pass (the admission loop with the global
    and the per-project capacity checks); admitting a job performs the
    synchronous prefix of `runWorker` (mark the job `running`, track the
    subprocess, watch the log);
  * `Op.cancel` — `cancel(ticketId)`;
  * `Op.planReview` — the tail of a successful `runPlanPhase` without
    auto-execute (persist plan, `plan_review`, complete the job);
  * `Op.finishSuccess` / `Op.finishFailure` — `finishWorker`.

`statusWrites` instruments every `tickets.updateStatus` call so that the
pairing of status transitions with `ticket:status` events can be stated. -/

structure OrchConfig where
  maxWorkers : Nat
  maxRetries : Nat
  logsDir : String := ""
  branchPref : String := "autodev/"

inductive OrchEvent
  | ticketStatus (tid : String) (st : TicketStatus)
  | jobProgress (tid : String) (phase : String) (pct : Nat)
  | logLine (tid : String) (line : String)
  | jobCompleted (tid : String)
  | jobFailed (tid : String) (msg : String)
deriving DecidableEq, Repr

structure ActiveWorker where
  job : ExecutionJob
  ticket : Ticket
  project : Project
deriving DecidableEq, Repr

structure OrchState where
  db : Db
  queue : List ExecutionJob
  activeWorkers : List (String × ActiveWorker)
  runnerProcs : List String
  watchers : List Nat
  events : List OrchEvent
  statusWrites : List (String × TicketStatus)
  nextJobId : Nat
deriving DecidableEq, Repr

/-- Workers of one project
(`[...activeWorkers.values()].filter(w => w.project.id === id).length`). -/
def projCount : List (String × ActiveWorker) → String → Nat
  | [], _ => 0
  | (_, w) :: rest, pid =>
    (if w.project.id = pid then 1 else 0) + projCount rest pid

/-- The queue scan of `Orchestrator.tick`: at each queue position, stop if
the global cap is reached; drop the job if its ticket or project is gone;
skip it in place if its project is at its per-project cap; otherwise remove
it from the queue and add a worker.  Returns the remaining queue, the new
worker map, and the jobs started (in admission order). -/
def tickGo (cfg : OrchConfig) (db : Db) :
    List ExecutionJob → List (String × ActiveWorker) →
    List ExecutionJob × List (String × ActiveWorker) × List ExecutionJob
  | [], ws => ([], ws, [])
  | j :: rest, ws =>
    if cfg.maxWorkers ≤ ws.length then (j :: rest, ws, [])
    else
      match db.findTicket j.ticketId with
      | none => tickGo cfg db rest ws
      | some t =>
        match db.findProject t.projectId with
        | none => tickGo cfg db rest ws
        | some p =>
          if p.settings.maxParallelJobs ≤ projCount ws p.id then
            let r := tickGo cfg db rest ws
            (j :: r.1, r.2.1, r.2.2)
          else
            let r := tickGo cfg db rest (aset ws t.id ⟨j, t, p⟩)
            (r.1, r.2.1, j :: r.2.2)

def phaseLabel (ph : JobPhase) : String :=
  match ph with
  | .plan => "plan"
  | _ => "execute"

def phaseStartPct (ph : JobPhase) : Nat :=
  match ph with
  | .plan => 5
  | _ => 32

/-- Synchronous prefix of `runWorker` for an admitted job: mark the job
`running`, start tracking the subprocess under the ticket id, watch the log
file, emit the initial progress event. -/
def startWorkerEffects (s : OrchState) (j : ExecutionJob) : OrchState :=
  { s with db := s.db.updateJobStatus j.id .running (some ()) none none,
           runnerProcs := addUnique s.runnerProcs j.ticketId,
           watchers := addUnique s.watchers j.id,
           events := s.events ++ [.jobProgress j.ticketId (phaseLabel j.phase)
             (phaseStartPct j.phase)] }

/-- `Orchestrator.tick`. -/
def Orchestrator.tick (cfg : OrchConfig) (s : OrchState) : OrchState :=
  if s.queue.length = 0 ∨ cfg.maxWorkers ≤ s.activeWorkers.length then s
  else
    let r := tickGo cfg s.db s.queue s.activeWorkers
    r.2.2.foldl startWorkerEffects { s with queue := r.1, activeWorkers := r.2.1 }

/-- `tickets.updateStatus` plus the instrumentation trace. -/
def OrchState.writeTicketStatus (s : OrchState) (tid : String) (st : TicketStatus)
    (startedAt completedAt : Option Unit) (err : Option String) : OrchState :=
  { s with db := s.db.updateTicketStatus tid st startedAt completedAt err,
           statusWrites := s.statusWrites ++ [(tid, st)] }

/-- `Orchestrator.enqueuePlan`. -/
def Orchestrator.enqueuePlan (cfg : OrchConfig) (s : OrchState) (t : Ticket)
    (_p : Project) : OrchState :=
  let logPath := cfg.logsDir ++ "/" ++ t.id ++ "/plan.log"
  let jd := s.db.createJob s.nextJobId t.id .plan logPath
  let s1 := { s with db := jd.2, nextJobId := s.nextJobId + 1 }
  let s2 := s1.writeTicketStatus t.id .planning none none none
  let s3 := { s2 with events := s2.events ++ [.ticketStatus t.id .planning],
                      queue := s2.queue ++ [jd.1] }
  Orchestrator.tick cfg s3

/-- `Orchestrator.enqueueExecute`. -/
def Orchestrator.enqueueExecute (cfg : OrchConfig) (s : OrchState) (t : Ticket)
    (_p : Project) : OrchState :=
  let logPath := cfg.logsDir ++ "/" ++ t.id ++ "/execute.log"
  let jd := s.db.createJob s.nextJobId t.id .execute logPath
  let s1 := { s with db := jd.2, nextJobId := s.nextJobId + 1 }
  let s2 := s1.writeTicketStatus t.id .queued none none none
  let s3 := { s2 with events := s2.events ++ [.ticketStatus t.id .queued],
                      queue := s2.queue ++ [jd.1] }
  Orchestrator.tick cfg s3

/-- Remove the first queued job of a ticket
(`queue.findIndex` + `splice` in `cancel`). -/
def removeFirstJob : List ExecutionJob → String → Option ExecutionJob × List ExecutionJob
  | [], _ => (none, [])
  | j :: rest, tid =>
    if j.ticketId = tid then (some j, rest)
    else
      let r := removeFirstJob rest tid
      (r.1, j :: r.2)

/-- `Orchestrator.cancel(ticketId)`: remove a queued job (marking it failed
with exit code −1), send the termination signal via `runner.cancel`, tear
down a running worker (stop its log tailer, mark its job failed), then
unconditionally set the ticket to `failed` with the cancellation message
and emit the status event.  The source does not re-tick here. -/
def Orchestrator.cancel (s : OrchState) (tid : String) : OrchState :=
  let rq := removeFirstJob s.queue tid
  let s1 := { s with queue := rq.2 }
  let s2 := match rq.1 with
    | some j => { s1 with db := s1.db.updateJobStatus j.id .failed none (some ()) (some (-1)) }
    | none => s1
  let s3 := { s2 with runnerProcs := eraseStr s2.runnerProcs tid }
  let s4 := match alookup s3.activeWorkers tid with
    | some w =>
      { s3 with activeWorkers := aerase s3.activeWorkers tid,
                watchers := eraseNat s3.watchers w.job.id,
                db := s3.db.updateJobStatus w.job.id .failed none (some ()) (some (-1)) }
    | none => s3
  let s5 := s4.writeTicketStatus tid .failed none none (some "Cancelled by user.")
  { s5 with events := s5.events ++ [.ticketStatus tid .failed] }

/-- `Orchestrator.finishWorker` (job success and failure paths).  By the
time it runs the agent subprocess has closed, so the runner has already
dropped the tracking entry. -/
def Orchestrator.finishWorker (cfg : OrchConfig) (s : OrchState) (tid : String)
    (succeeded : Bool) (errMsg : Option String) : OrchState :=
  match alookup s.activeWorkers tid with
  | none => s
  | some w =>
    let s0 := { s with watchers := eraseNat s.watchers w.job.id,
                       activeWorkers := aerase s.activeWorkers tid,
                       runnerProcs := eraseStr s.runnerProcs tid }
    if succeeded then
      let s1 := { s0 with db := s0.db.updateJobStatus w.job.id .completed none (some ()) (some 0) }
      let s2 := s1.writeTicketStatus tid .completed none (some ()) none
      let s3 := { s2 with events := s2.events ++ [.ticketStatus tid .completed,
        .jobCompleted tid, .jobProgress tid "execute" 100] }
      Orchestrator.tick cfg s3
    else
      let msg := errMsg.getD "Unknown error"
      let s1 := { s0 with db := s0.db.updateJobStatus w.job.id .failed none (some ()) (some 1) }
      let s2 := s1.writeTicketStatus tid .failed none (some ()) (some msg)
      let s3 := { s2 with events := s2.events ++ [.ticketStatus tid .failed,
        .jobFailed tid msg] }
      Orchestrator.tick cfg s3

/-- Tail of a successful `runPlanPhase` without auto-execute: stop the log
tailer, persist the extracted plan, set `plan_review` (with its event),
complete the job, drop the worker, re-tick. -/
def Orchestrator.planReviewFinish (cfg : OrchConfig) (s : OrchState) (tid : String)
    (plan : String) : OrchState :=
  match alookup s.activeWorkers tid with
  | none => s
  | some w =>
    let s0 := { s with watchers := eraseNat s.watchers w.job.id,
                       runnerProcs := eraseStr s.runnerProcs tid }
    let s1 := { s0 with db := s0.db.updateTicketPlan tid plan }
    let s2 := s1.writeTicketStatus tid TicketStatus.plan_review none none none
    let s3 := { s2 with events := s2.events ++ [OrchEvent.ticketStatus tid TicketStatus.plan_review] }
    let s4 := { s3 with db := s3.db.updateJobStatus w.job.id JobStatus.completed none (some ()) (some 0),
                        activeWorkers := aerase s3.activeWorkers tid }
    Orchestrator.tick cfg { s4 with events := s4.events ++ [OrchEvent.jobProgress tid "plan" 30] }

/-- The operations an execution trace is built from. -/
inductive Op
  | enqueuePlan (t : Ticket) (p : Project)
  | enqueueExecute (t : Ticket) (p : Project)
  | cancel (tid : String)
  | tick
  | planReview (tid : String) (plan : String)
  | finishSuccess (tid : String)
  | finishFailure (tid : String) (msg : String)

def applyOp (cfg : OrchConfig) (s : OrchState) : Op → OrchState
  | .enqueuePlan t p => Orchestrator.enqueuePlan cfg s t p
  | .enqueueExecute t p => Orchestrator.enqueueExecute cfg s t p
  | .cancel tid => Orchestrator.cancel s tid
  | .tick => Orchestrator.tick cfg s
  | .planReview tid plan => Orchestrator.planReviewFinish cfg s tid plan
  | .finishSuccess tid => Orchestrator.finishWorker cfg s tid true none
  | .finishFailure tid msg => Orchestrator.finishWorker cfg s tid false (some msg)

def runOps (cfg : OrchConfig) (s : OrchState) (ops : List Op) : OrchState :=
  ops.foldl (applyOp cfg) s

/-- Fresh orchestrator state over a store holding the given projects and
tickets and no job rows. -/
def initState (projects : List (String × Project)) (tickets : List (String × Ticket)) :
    OrchState :=
  { db := { projects := projects, tickets := tickets, jobs := [] },
    queue := [], activeWorkers := [], runnerProcs := [], watchers := [],
    events := [], statusWrites := [], nextJobId := 0 }

/-! ## Scheduler capacity invariant (claim C1 support). -/

/-- The store keys projects by their own id. -/
def ProjectsWF (projects : List (String × Project)) : Prop :=
  ∀ kp ∈ projects, (kp.2 : Project).id = kp.1

/-- Two-level admission control: global cap on the worker pool and the
per-project cap for every registered project. -/
def WsCapsOK (cfg : OrchConfig) (projects : List (String × Project))
    (ws : List (String × ActiveWorker)) : Prop :=
  ws.length ≤ cfg.maxWorkers ∧
  ∀ pid p, alookup projects pid = some p →
    projCount ws pid ≤ p.settings.maxParallelJobs

def SchedCapsOK (cfg : OrchConfig) (s : OrchState) : Prop :=
  WsCapsOK cfg s.db.projects s.activeWorkers

/-! ## Execute-phase worker (`Orchestrator.runExecutePhase`).

The phase is a pure function of the configuration, the project settings,
the ticket, the job id, and the observed behaviour of the environment (the
agent's exit codes, the test command's results, the lint result and the
change summary).  It returns the traces the source produces: agent
invocations, `incrementRetry` targets, ticket status writes (with the
error argument), `ticket:status` emissions, the metadata write, and the
final job row update.  Throwing is modelled with `Except`; a thrown error
reaches `runWorker`'s catch, which calls `finishWorker(..., false, msg)`. -/

structure ExecEnv where
  /-- Exit code of the i-th agent invocation (0-based). -/
  agentExit : Nat → Int
  /-- Exit code and combined output of the i-th test-command run. -/
  testRun : Nat → Int × String
  /-- Stack-detector fallbacks for `settings.testCommand ?? stack.testCommand`. -/
  stackTestCommand : Option String := none
  stackLintCommand : Option String := none
  /-- Lint exit code when a lint command runs. -/
  lintExit : Int := 0
  /-- `some files` when `getChangeSummary` succeeds, `none` when it throws
  (the catch skips the metadata write). -/
  changeSummary : Option (List String) := some []

structure LoopOut where
  /-- Total agent invocations performed (cumulative). -/
  invocations : Nat
  /-- Job ids passed to `jobs.incrementRetry`, in order. -/
  retryIncrements : List Nat
  /-- Ticket status writes performed inside the loop (status, error arg). -/
  writes : List (TicketStatus × Option String)
  /-- `ticket:status` events emitted inside the loop. -/
  tsEvents : List TicketStatus
  /-- Value of the local `retryCount` when the loop ends. -/
  finalRetryCount : Nat
  /-- `ok` on success, `error msg` when the loop throws. -/
  result : Except String Unit
deriving Repr

/-- The `while (retryCount <= maxRetries)` loop of `runExecutePhase`.
`fuel` only witnesses termination (`retryCount` grows by one per
iteration, so `maxRetries + 1` fuel always suffices); the `rc > maxRetries`
guard is the loop condition and the unreachable post-loop throw. -/
def execLoop (maxRetries : Nat) (jobId : Nat) (agent : Nat → Int)
    (testCmd : Option (Nat → Int × String)) :
    Nat → Nat → Nat → Nat → LoopOut
  | 0, rc, inv, _tests =>
    ⟨inv, [], [], [], rc, .error "Execution failed after exhausting retries."⟩
  | fuel + 1, rc, inv, tests =>
    if maxRetries < rc then
      ⟨inv, [], [], [], rc, .error "Execution failed after exhausting retries."⟩
    else
      let agentCode := agent inv
      let inv' := inv + 1
      if agentCode ≠ 0 then
        ⟨inv', [], [], [], rc,
          .error ("Claude Code exited with code " ++ toString agentCode)⟩
      else
        match testCmd with
        | none => ⟨inv', [], [], [], rc, .ok ()⟩
        | some t =>
          let tr := t tests
          if tr.1 = 0 then
            ⟨inv', [], [(.testing, none)], [.testing], rc, .ok ()⟩
          else
            let rc' := rc + 1
            if maxRetries < rc' then
              ⟨inv', [jobId], [(.testing, none)], [.testing], rc',
                .error ("Tests still failing after " ++ toString maxRetries ++
                  " retries.\n\nLast error:\n" ++ tr.2)⟩
            else
              let r := execLoop maxRetries jobId agent testCmd fuel rc' inv' (tests + 1)
              ⟨r.invocations, jobId :: r.retryIncrements,
                (.testing, none) :: r.writes, .testing :: r.tsEvents,
                r.finalRetryCount, r.result⟩

/-- Effective test command: `project.settings.testCommand ?? stack.testCommand`,
then the JS truthiness test `if (testCommand)` (an empty string counts as
no test command). -/
def effectiveCommand (settingsCmd stackCmd : Option String) : Option String :=
  match settingsCmd with
  | some c => if c = "" then none else some c
  | none =>
    match stackCmd with
    | some c => if c = "" then none else some c
    | none => none

structure ExecOut where
  invocations : Nat
  retryIncrements : List Nat
  /-- All ticket status writes of the phase (including the terminal one
  applied by `finishWorker` or the catch in `runWorker`). -/
  writes : List (TicketStatus × Option String)
  /-- All `ticket:status` events of the phase. -/
  tsEvents : List TicketStatus
  /-- The `tickets.setMetadata` call, when reached. -/
  metadataWrite : Option TicketMetadata
  /-- Branch recorded by `tickets.updateBranch`. -/
  branchAssigned : String
  /-- Final job row status and exit code. -/
  jobFinal : JobStatus × Option Int
deriving Repr

/-- `runExecutePhase` followed by `finishWorker` (success) or the catch in
`runWorker` plus `finishWorker` (failure): worktree creation and branch
recording, `in_progress`, the test-fix retry loop, the non-blocking lint
step, the change summary and metadata write, and the terminal transition. -/
def runExecutePhase (cfg : OrchConfig) (p : Project) (t : Ticket) (jobId : Nat)
    (env : ExecEnv) : ExecOut :=
  let branch := String.mk (branchFor cfg.branchPref.data t.id.data t.title.data)
  let testCommand := effectiveCommand p.settings.testCommand env.stackTestCommand
  let loop := execLoop cfg.maxRetries jobId env.agentExit
    (testCommand.map (fun _ => env.testRun)) (cfg.maxRetries + 1) 0 0 0
  let headWrites : List (TicketStatus × Option String) := [(.in_progress, none)]
  let headEvents : List TicketStatus := [.in_progress]
  match loop.result with
  | .error msg =>
    { invocations := loop.invocations,
      retryIncrements := loop.retryIncrements,
      writes := headWrites ++ loop.writes ++ [(.failed, some msg)],
      tsEvents := headEvents ++ loop.tsEvents ++ [.failed],
      metadataWrite := none,
      branchAssigned := branch,
      jobFinal := (.failed, some 1) }
  | .ok _ =>
    let metadata := env.changeSummary.map (fun files =>
      { filesChanged := some files,
        testsPassed := some testCommand.isSome,
        retryCount := some loop.finalRetryCount : TicketMetadata })
    { invocations := loop.invocations,
      retryIncrements := loop.retryIncrements,
      writes := headWrites ++ loop.writes ++ [(.completed, none)],
      tsEvents := headEvents ++ loop.tsEvents ++ [.completed],
      metadataWrite := metadata,
      branchAssigned := branch,
      jobFinal := (.completed, some 0) }

/-! ## Active jobs per ticket (claim C3 support).

`countActive db tid` counts the job rows of a ticket in status `pending`
or `running`. -/

def activeRow (r : ExecutionJob) (tid : String) : Prop :=
  r.ticketId = tid ∧ (r.status = .pending ∨ r.status = .running)

instance (r : ExecutionJob) (tid : String) : Decidable (activeRow r tid) := by
  unfold activeRow
  infer_instance

def countActive : List ExecutionJob → String → Nat
  | [], _ => 0
  | r :: rest, tid => (if activeRow r tid then 1 else 0) + countActive rest tid

/-- Every row of a given job id is still `pending` (true of every job that
is sitting in the queue). -/
def rowsPendingFor (db : Db) (jid : Nat) : Prop :=
  ∀ r ∈ db.jobs, r.id = jid → r.status = .pending

/-- The bookkeeping invariant tying the queue, the worker pool and the job
rows together: ids are fresh and unique, queued jobs are still `pending`
in the store, and no worker shares a job id with a queued job. -/
structure StoreInv (s : OrchState) : Prop where
  rowsBounded : ∀ r ∈ s.db.jobs, r.id < s.nextJobId
  queueBounded : ∀ j ∈ s.queue, j.id < s.nextJobId
  workerBounded : ∀ kw ∈ s.activeWorkers, (kw.2 : ActiveWorker).job.id < s.nextJobId
  queueDistinct : s.queue.Pairwise (fun a b => a.id ≠ b.id)
  queuePending : ∀ j ∈ s.queue, rowsPendingFor s.db j.id
  workerQueueDisjoint : ∀ kw ∈ s.activeWorkers, ∀ j ∈ s.queue,
    (kw.2 : ActiveWorker).job.id ≠ j.id

/-- At most one active job row per ticket. -/
def CountsOK (s : OrchState) : Prop :=
  ∀ tid, countActive s.db.jobs tid ≤ 1

/-- The job row an enqueue operation inserts. -/
def enqueuedJob (s : OrchState) (tid : String) (ph : JobPhase) (lp : String) :
    ExecutionJob :=
  { id := s.nextJobId, ticketId := tid, phase := ph, logPath := lp }

/-- States reachable when the enqueue operations are only invoked for a
ticket with no active job row (the UI guard: the execute and plan actions
are offered only for tickets without a pending or running job).  The other
operations are unrestricted. -/
inductive GuardedReach (cfg : OrchConfig) : OrchState → Prop
  | init (projects : List (String × Project)) (tickets : List (String × Ticket)) :
      GuardedReach cfg (initState projects tickets)
  | stepEnqueuePlan {s : OrchState} (t : Ticket) (p : Project) :
      GuardedReach cfg s → countActive s.db.jobs t.id = 0 →
      GuardedReach cfg (Orchestrator.enqueuePlan cfg s t p)
  | stepEnqueueExecute {s : OrchState} (t : Ticket) (p : Project) :
      GuardedReach cfg s → countActive s.db.jobs t.id = 0 →
      GuardedReach cfg (Orchestrator.enqueueExecute cfg s t p)
  | stepCancel {s : OrchState} (tid : String) :
      GuardedReach cfg s → GuardedReach cfg (Orchestrator.cancel s tid)
  | stepTick {s : OrchState} :
      GuardedReach cfg s → GuardedReach cfg (Orchestrator.tick cfg s)
  | stepPlanReview {s : OrchState} (tid : String) (plan : String) :
      GuardedReach cfg s →
      GuardedReach cfg (Orchestrator.planReviewFinish cfg s tid plan)
  | stepFinish {s : OrchState} (tid : String) (succeeded : Bool)
      (errMsg : Option String) :
      GuardedReach cfg s →
      GuardedReach cfg (Orchestrator.finishWorker cfg s tid succeeded errMsg)

/-! ## Status writes and lifecycle events (claim C5 support). -/

/-- The `(ticketId, status)` pairs carried by the `ticket:status` events of
an event list, in order. -/
def eventStatusTrace (evs : List OrchEvent) : List (String × TicketStatus) :=
  evs.filterMap (fun e => match e with
    | OrchEvent.ticketStatus tid st => some (tid, st)
    | _ => none)

/-- Every ticket status write performed so far has been paired, in order,
with an emitted `ticket:status` event. -/
def StatusEventPaired (s : OrchState) : Prop :=
  s.statusWrites = eventStatusTrace s.events

/-- `recoverInterruptedJobs` (extension.ts): on startup, every ticket stuck
in `in_progress`, `planning` or `testing` is set to `failed` with a
recovery message.  Only an output-channel line is printed: no orchestrator
event is emitted. -/
def interruptedTicket (st : TicketStatus) : Bool :=
  match st with
  | TicketStatus.in_progress => true
  | TicketStatus.planning => true
  | TicketStatus.testing => true
  | _ => false

def recoverInterruptedJobs (s : OrchState) : OrchState :=
  s.db.tickets.foldl (fun acc kt =>
    if interruptedTicket kt.2.status then
      { acc with
          db := acc.db.updateTicketStatus kt.1 TicketStatus.failed none none
            (some "Job interrupted by editor restart. Re-execute to try again."),
          statusWrites := acc.statusWrites ++ [(kt.1, TicketStatus.failed)] }
    else acc) s

/-- The successful merge path of `TicketDetailProvider.handleMerge`: after
the git merge the ticket is set to `merged` through `tickets.updateStatus`;
no orchestrator event is emitted (only a notification popup). -/
def handleMerge (s : OrchState) (tid : String) : OrchState :=
  match s.db.findTicket tid with
  | none => s
  | some t =>
    match t.branch with
    | none => s
    | some _ =>
      match s.db.findProject t.projectId with
      | none => s
      | some _ =>
        { s with
            db := s.db.updateTicketStatus tid TicketStatus.merged none none none,
            statusWrites := s.statusWrites ++ [(tid, TicketStatus.merged)] }

/-! ## No `fix`-phase jobs (claim C10 support). -/

/-- No job row of the store carries the (declared but unused) `fix` phase. -/
def NoFixRows (s : OrchState) : Prop :=
  ∀ r ∈ s.db.jobs, r.phase ≠ JobPhase.fix

/-! ## Concrete fixtures used by the witnesses and counterexamples. -/

def demoSettings : ProjectSettings := { maxParallelJobs := 1 }

def demoProject : Project := { id := "p1", settings := demoSettings }

def demoTicket : Ticket := { id := "t1", projectId := "p1" }

def demoTicketMergeable : Ticket :=
  { id := "t1", projectId := "p1", status := TicketStatus.completed,
    branch := some "autodev/ticket-t1-x" }

def demoTicketInterrupted : Ticket :=
  { id := "t1", projectId := "p1", status := TicketStatus.in_progress }

def demoCfg : OrchConfig := { maxWorkers := 2, maxRetries := 2 }

def demoCfgZero : OrchConfig := { maxWorkers := 0, maxRetries := 2 }

def demoSettingsTest : ProjectSettings :=
  { maxParallelJobs := 1, testCommand := some "exit 1" }

def demoProjectTest : Project := { id := "p1", settings := demoSettingsTest }

def demoEnvFail : ExecEnv :=
  { agentExit := fun _ => 0, testRun := fun _ => (1, "FAIL") }

def demoTemplate : List Char := "Hello \x7b\x7bTICKET_TITLE\x7d\x7d".data

def demoCtx : TemplateContext :=
  { ticketTitle := "World".data, ticketDescription := [], projectName := [],
    autoDetectedStack := [], testCommand := [], buildCommand := [] }

def demoCtxLoop : TemplateContext :=
  { ticketTitle := "X".data, ticketDescription := [], projectName := tokTicketTitle,
    autoDetectedStack := [], testCommand := [], buildCommand := [] }

/-! ## Theorems. -/

theorem aset_length_le {α : Type} (l : List (String × α)) (k : String) (v : α) :
    (aset l k v).length ≤ l.length + 1 := by
  induction l with
  | nil => simp [aset]
  | cons hd tl ih =>
    simp only [aset]
    split
    · simp
    · simpa using Nat.succ_le_succ ih

theorem aerase_length_le {α : Type} (l : List (String × α)) (k : String) :
    (aerase l k).length ≤ l.length := by
  induction l with
  | nil => simp [aerase]
  | cons hd tl ih =>
    simp only [aerase]
    split
    · exact Nat.le_succ _
    · simpa using Nat.succ_le_succ ih

theorem splitNl_ne_nil (s : List Char) : splitNl s ≠ [] := by
  cases s with
  | nil => simp [splitNl]
  | cons c rest =>
    simp only [splitNl]
    split
    · simp
    · split <;> simp

theorem joinNl_cons_of_ne_nil (x : List Char) (l : List (List Char)) (h : l ≠ []) :
    joinNl (x :: l) = x ++ '\n' :: joinNl l := by
  cases l with
  | nil => exact absurd rfl h
  | cons y t => rfl

theorem joinNl_splitNl (s : List Char) : joinNl (splitNl s) = s := by
  induction s with
  | nil => simp [splitNl, joinNl]
  | cons c rest ih =>
    simp only [splitNl]
    split
    · rename_i hc
      rw [joinNl_cons_of_ne_nil _ _ (splitNl_ne_nil rest), ih, hc]
      simp
    · cases hrest : splitNl rest with
      | nil => exact absurd hrest (splitNl_ne_nil rest)
      | cons h t =>
        cases t with
        | nil =>
          simp only [joinNl]
          rw [hrest] at ih
          simp only [joinNl] at ih
          rw [ih]
        | cons y t' =>
          rw [joinNl_cons_of_ne_nil _ _ (by simp)]
          rw [hrest] at ih
          rw [joinNl_cons_of_ne_nil _ _ (by simp)] at ih
          simp only [List.cons_append, ih]

theorem nl_not_mem_of_mem_splitNl {s : List Char} {p : List Char}
    (hp : p ∈ splitNl s) : '\n' ∉ p := by
  induction s generalizing p with
  | nil =>
    simp only [splitNl, List.mem_singleton] at hp
    subst hp; simp
  | cons c rest ih =>
    simp only [splitNl] at hp
    split at hp
    · rcases List.mem_cons.mp hp with h | h
      · subst h; simp
      · exact ih h
    · rename_i hc
      cases hrest : splitNl rest with
      | nil => exact absurd hrest (splitNl_ne_nil rest)
      | cons h t =>
        rw [hrest] at hp
        rcases List.mem_cons.mp hp with hh | hh
        · subst hh
          intro hmem
          rcases List.mem_cons.mp hmem with h1 | h1
          · exact hc h1.symm
          · exact ih (hrest ▸ List.mem_cons_self h t) h1
        · exact ih (hrest ▸ List.mem_cons_of_mem h hh)

theorem splitNl_eq_termLines_append (s : List Char) :
    splitNl s = termLines s ++ [lastPart s] := by
  have h := splitNl_ne_nil s
  unfold termLines lastPart
  cases hs : splitNl s with
  | nil => exact absurd hs h
  | cons a l =>
    rw [List.getLastD_eq_getLast?, List.getLast?_eq_getLast (a :: l) (by simp)]
    simp [List.dropLast_append_getLast]

theorem splitNl_of_no_nl {s : List Char} (h : '\n' ∉ s) : splitNl s = [s] := by
  induction s with
  | nil => simp [splitNl]
  | cons c rest ih =>
    simp only [splitNl]
    have hc : ¬ c = '\n' := by
      intro hc; exact h (hc ▸ List.mem_cons_self c rest)
    rw [if_neg hc, ih (fun hm => h (List.mem_cons_of_mem c hm))]

theorem termLines_of_no_nl {s : List Char} (h : '\n' ∉ s) : termLines s = [] := by
  simp [termLines, splitNl_of_no_nl h]

theorem lastPart_of_no_nl {s : List Char} (h : '\n' ∉ s) : lastPart s = s := by
  simp [lastPart, splitNl_of_no_nl h]

theorem splitNl_append_nl {p : List Char} (h : '\n' ∉ p) (r : List Char) :
    splitNl (p ++ '\n' :: r) = p :: splitNl r := by
  induction p with
  | nil => simp [splitNl]
  | cons c p' ih =>
    have hc : ¬ c = '\n' := by
      intro hc; exact h (hc ▸ List.mem_cons_self c p')
    have h' : '\n' ∉ p' := fun hm => h (List.mem_cons_of_mem c hm)
    simp only [List.cons_append, splitNl, if_neg hc]
    have hrw : p'.append ('\n' :: r) = p' ++ '\n' :: r := rfl
    rw [hrw, ih h']

theorem joinNl_snoc (ps : List (List Char)) (x : List Char) :
    joinNl (ps ++ [x]) = joinNl (ps ++ [[]]) ++ x := by
  induction ps with
  | nil => simp [joinNl]
  | cons p ps' ih =>
    rw [List.cons_append, List.cons_append,
        joinNl_cons_of_ne_nil _ _ (by simp), joinNl_cons_of_ne_nil _ _ (by simp),
        ih]
    simp

theorem splitNl_joinNl_append {ps : List (List Char)}
    (hps : ∀ p ∈ ps, '\n' ∉ p) (b : List Char) :
    splitNl (joinNl (ps ++ [[]]) ++ b) = ps ++ splitNl b := by
  induction ps with
  | nil => simp [joinNl]
  | cons p ps' ih =>
    rw [List.cons_append, joinNl_cons_of_ne_nil _ _ (by simp), List.append_assoc,
        List.cons_append]
    rw [splitNl_append_nl (hps p (List.mem_cons_self p ps'))]
    rw [ih (fun q hq => hps q (List.mem_cons_of_mem p hq))]
    simp

/-- A text decomposes as its newline-closed part followed by its trailing
open part. -/
theorem boundary_decomp (s : List Char) :
    s = joinNl (termLines s ++ [[]]) ++ lastPart s := by
  conv_lhs => rw [← joinNl_splitNl s]
  rw [splitNl_eq_termLines_append s, joinNl_snoc]

theorem termLines_no_nl_mem (s : List Char) : ∀ p ∈ termLines s, '\n' ∉ p := by
  intro p hp
  exact nl_not_mem_of_mem_splitNl (by
    rw [splitNl_eq_termLines_append s]
    exact List.mem_append_left _ hp)

theorem nl_not_mem_lastPart (s : List Char) : '\n' ∉ lastPart s := by
  apply nl_not_mem_of_mem_splitNl (s := s)
  rw [splitNl_eq_termLines_append s]
  simp

theorem getLastD_append_right {α : Type} (l₁ : List α) {l₂ : List α} (h : l₂ ≠ [])
    (d : α) : (l₁ ++ l₂).getLastD d = l₂.getLastD d := by
  cases l₂ with
  | nil => exact absurd rfl h
  | cons x t =>
    rw [List.getLastD_eq_getLast?, List.getLastD_eq_getLast?, List.getLast?_append]
    rw [List.getLast?_eq_getLast (x :: t) (by simp)]
    simp

/-- Splitting after a closed (newline-terminated) block: the block contributes
exactly its complete lines. -/
theorem splitNl_closed_append {a : List Char} (ha : lastPart a = []) (b : List Char) :
    splitNl (a ++ b) = termLines a ++ splitNl b := by
  conv_lhs => rw [boundary_decomp a, ha, List.append_nil]
  rw [splitNl_joinNl_append (termLines_no_nl_mem a) b]

theorem termLines_closed_append {a : List Char} (ha : lastPart a = []) (b : List Char) :
    termLines (a ++ b) = termLines a ++ termLines b := by
  unfold termLines
  rw [splitNl_closed_append ha b, List.dropLast_append_of_ne_nil _ (splitNl_ne_nil b)]
  rfl

theorem lastPart_closed_append {a : List Char} (ha : lastPart a = []) (b : List Char) :
    lastPart (a ++ b) = lastPart b := by
  unfold lastPart
  rw [splitNl_closed_append ha b, getLastD_append_right _ (splitNl_ne_nil b)]

theorem splitNl_empty : splitNl [] = [[]] := rfl

theorem lastPart_closed (ps : List (List Char)) (hps : ∀ p ∈ ps, '\n' ∉ p) :
    lastPart (joinNl (ps ++ [[]])) = [] := by
  have h := splitNl_joinNl_append hps []
  rw [List.append_nil, splitNl_empty] at h
  unfold lastPart
  rw [h, getLastD_append_right _ (by simp)]
  rfl

theorem termLines_closed (ps : List (List Char)) (hps : ∀ p ∈ ps, '\n' ∉ p) :
    termLines (joinNl (ps ++ [[]])) = ps := by
  have h := splitNl_joinNl_append hps []
  rw [List.append_nil, splitNl_empty] at h
  unfold termLines
  rw [h]
  simp

/-- Appending newline-free text extends only the trailing open part. -/
theorem splitNl_append_no_nl {y : List Char} (hy : '\n' ∉ y) (x : List Char) :
    splitNl (x ++ y) = termLines x ++ [lastPart x ++ y] := by
  conv_lhs => rw [boundary_decomp x]
  rw [List.append_assoc, splitNl_joinNl_append (termLines_no_nl_mem x)]
  rw [splitNl_of_no_nl (by
    intro hmem
    rcases List.mem_append.mp hmem with h | h
    · exact nl_not_mem_lastPart x h
    · exact hy h)]

theorem termLines_append_no_nl {y : List Char} (hy : '\n' ∉ y) (x : List Char) :
    termLines (x ++ y) = termLines x := by
  unfold termLines
  rw [splitNl_append_no_nl hy x]
  simp [termLines]

theorem lastPart_append_no_nl {y : List Char} (hy : '\n' ∉ y) (x : List Char) :
    lastPart (x ++ y) = lastPart x ++ y := by
  unfold lastPart
  rw [splitNl_append_no_nl hy x, getLastD_append_right _ (by simp)]
  rfl

theorem logInv_init : LogInv ⟨[], 0, []⟩ := by
  refine ⟨Nat.le_refl _, ?_, ?_⟩ <;> simp [lastPart, termLines, splitNl]

theorem logInv_app {s : LogState} (h : LogInv s) (bs : List Char) :
    LogInv (logStep s (.app bs)) := by
  obtain ⟨h1, h2, h3⟩ := h
  refine ⟨?_, ?_, ?_⟩
  · simp only [logStep, List.length_append]
    omega
  · simpa [logStep, List.take_append_of_le_length h1] using h2
  · simpa [logStep, List.take_append_of_le_length h1] using h3

theorem pollStep_no_data {content : List Char} {offset : Nat}
    (h : content.length ≤ offset) : pollStep content offset = (offset, []) := by
  simp [pollStep, h]

theorem pollStep_closed {content : List Char} {offset : Nat}
    (hlt : offset < content.length) (hempty : lastPart (content.drop offset) = []) :
    pollStep content offset =
      (content.length, (termLines (content.drop offset)).filter (fun l => l ≠ [])) := by
  unfold pollStep
  rw [if_neg (Nat.not_le_of_lt hlt)]
  have h1 : (splitNl (content.drop offset)).getLastD [] = [] := hempty
  simp only [h1, if_pos rfl]
  rfl

theorem pollStep_open {content : List Char} {offset : Nat}
    (hlt : offset < content.length) (hne : lastPart (content.drop offset) ≠ []) :
    pollStep content offset =
      (content.length - (lastPart (content.drop offset)).length,
        (termLines (content.drop offset)).filter (fun l => l ≠ [])) := by
  unfold pollStep
  rw [if_neg (Nat.not_le_of_lt hlt)]
  have h1 : (splitNl (content.drop offset)).getLastD [] = lastPart (content.drop offset) := rfl
  simp only [h1, if_neg hne]
  rfl

/-- The rolled-back offset after a poll is the length of a newline-closed
prefix, and that prefix carries the same complete lines as the whole file. -/
theorem poll_target_decomp {content : List Char} {offset : Nat}
    (_hoff : offset ≤ content.length)
    (hcl : lastPart (content.take offset) = []) :
    (lastPart (content.drop offset) = [] →
      lastPart content = [] ∧ termLines content = termLines content) ∧
    (∀ _ : lastPart (content.drop offset) ≠ [],
      content.length - (lastPart (content.drop offset)).length ≤ content.length ∧
      content.take (content.length - (lastPart (content.drop offset)).length) =
        content.take offset ++ joinNl (termLines (content.drop offset) ++ [[]])) := by
  set a := content.take offset with ha
  set b := content.drop offset with hb
  have hab : content = a ++ b := (List.take_append_drop offset content).symm
  constructor
  · intro hempty
    constructor
    · rw [hab, lastPart_closed_append hcl, hempty]
    · rfl
  · intro hne
    have hdecomp := boundary_decomp b
    set b₁ := joinNl (termLines b ++ [[]]) with hb₁
    have hblen : b.length = b₁.length + (lastPart b).length := by
      conv_lhs => rw [hdecomp]
      rw [List.length_append]
    have hclen : content.length = a.length + b.length := by
      rw [hab, List.length_append]
    constructor
    · omega
    · have hoff' : content.length - (lastPart b).length = (a ++ b₁).length := by
        rw [hclen, hblen, List.length_append]
        omega
      rw [hoff']
      have hc : content = (a ++ b₁) ++ lastPart b := by
        rw [List.append_assoc, ← hdecomp, hab]
      rw [hc, List.take_left]

theorem logInv_poll {s : LogState} (h : LogInv s) : LogInv (logStep s .poll) := by
  obtain ⟨h1, h2, h3⟩ := h
  by_cases hle : s.content.length ≤ s.offset
  · simp only [logStep, pollStep_no_data hle]
    exact ⟨h1, h2, by simpa using h3⟩
  · have hlt : s.offset < s.content.length := Nat.lt_of_not_le hle
    have hdec := poll_target_decomp (Nat.le_of_lt hlt) h2
    by_cases hempty : lastPart (s.content.drop s.offset) = []
    · simp only [logStep, pollStep_closed hlt hempty]
      refine ⟨Nat.le_refl _, ?_, ?_⟩
      · simpa using (hdec.1 hempty).1
      · have hab : s.content = s.content.take s.offset ++ s.content.drop s.offset :=
          (List.take_append_drop s.offset s.content).symm
        simp only [List.take_length]
        conv_lhs => rw [h3]
        conv_rhs => rw [hab, termLines_closed_append h2, List.filter_append]
    · simp only [logStep, pollStep_open hlt hempty]
      obtain ⟨hlen, htake⟩ := hdec.2 hempty
      have hb₁closed : lastPart (joinNl (termLines (s.content.drop s.offset) ++ [[]])) = [] :=
        lastPart_closed _ (termLines_no_nl_mem _)
      have hterm₁ : termLines (joinNl (termLines (s.content.drop s.offset) ++ [[]])) =
          termLines (s.content.drop s.offset) :=
        termLines_closed _ (termLines_no_nl_mem _)
      refine ⟨hlen, ?_, ?_⟩
      · rw [htake, lastPart_closed_append h2, hb₁closed]
      · rw [htake, termLines_closed_append h2, hterm₁, List.filter_append, ← h3]

theorem logInv_run (evs : List LogEv) : LogInv (runLog evs) := by
  unfold runLog
  induction evs using List.reverseRecOn with
  | nil => exact logInv_init
  | append_singleton l e ih =>
    rw [List.foldl_append]
    cases e with
    | app bs => exact logInv_app ih bs
    | poll => exact logInv_poll ih

/-- After a poll, the committed prefix contains every `'\n'` of the file:
the offset has advanced past the final newline. -/
theorem poll_commits_all_lines {s : LogState} (h : LogInv s) :
    termLines ((logStep s .poll).content.take (logStep s .poll).offset) =
      termLines s.content := by
  obtain ⟨h1, h2, _⟩ := h
  by_cases hle : s.content.length ≤ s.offset
  · simp only [logStep, pollStep_no_data hle]
    have : s.offset = s.content.length := Nat.le_antisymm h1 hle
    rw [this]
    simp
  · have hlt : s.offset < s.content.length := Nat.lt_of_not_le hle
    have hdec := poll_target_decomp (Nat.le_of_lt hlt) h2
    by_cases hempty : lastPart (s.content.drop s.offset) = []
    · simp only [logStep, pollStep_closed hlt hempty]
      simp
    · simp only [logStep, pollStep_open hlt hempty]
      obtain ⟨hlen, htake⟩ := hdec.2 hempty
      have hterm₁ : termLines (joinNl (termLines (s.content.drop s.offset) ++ [[]])) =
          termLines (s.content.drop s.offset) :=
        termLines_closed _ (termLines_no_nl_mem _)
      have hab : s.content = s.content.take s.offset ++ s.content.drop s.offset :=
        (List.take_append_drop s.offset s.content).symm
      rw [htake, termLines_closed_append h2, hterm₁]
      conv_rhs => rw [hab, termLines_closed_append h2]

theorem runnerInv_init : RunnerInv ⟨[], [], []⟩ := by
  refine ⟨?_, ?_⟩ <;> simp [lastPart, termLines, splitNl]

theorem runnerInv_step {s : RunnerState} (h : RunnerInv s) (chunk : List Char) :
    RunnerInv (runnerStep s chunk) := by
  obtain ⟨h1, h2⟩ := h
  have hbuf : '\n' ∉ s.lineBuffer := h1 ▸ nl_not_mem_lastPart s.outputBuffer
  have hdecomp := boundary_decomp s.outputBuffer
  set a := joinNl (termLines s.outputBuffer ++ [[]]) with ha
  have haclosed : lastPart a = [] := lastPart_closed _ (termLines_no_nl_mem _)
  have haterm : termLines a = termLines s.outputBuffer :=
    termLines_closed _ (termLines_no_nl_mem _)
  have hout : s.outputBuffer ++ chunk = a ++ (s.lineBuffer ++ chunk) := by
    conv_lhs => rw [hdecomp, ← h1]
    rw [List.append_assoc]
  constructor
  · show (splitNl (s.lineBuffer ++ chunk)).getLastD [] = lastPart (s.outputBuffer ++ chunk)
    rw [hout, lastPart_closed_append haclosed]
    rfl
  · show s.delivered ++ (splitNl (s.lineBuffer ++ chunk)).dropLast.filter (fun l => l ≠ []) =
      (termLines (s.outputBuffer ++ chunk)).filter (fun l => l ≠ [])
    rw [hout, termLines_closed_append haclosed, haterm, List.filter_append, ← h2]
    rfl

theorem runnerInv_fold (chunks : List (List Char)) :
    RunnerInv (chunks.foldl runnerStep ⟨[], [], []⟩) := by
  induction chunks using List.reverseRecOn with
  | nil => exact runnerInv_init
  | append_singleton l c ih =>
    rw [List.foldl_append]
    exact runnerInv_step ih c

theorem runnerFold_output (chunks : List (List Char)) :
    (chunks.foldl runnerStep ⟨[], [], []⟩).outputBuffer = chunks.flatten := by
  have : ∀ (s : RunnerState) (l : List (List Char)),
      (l.foldl runnerStep s).outputBuffer = s.outputBuffer ++ l.flatten := by
    intro s l
    induction l generalizing s with
    | nil => simp
    | cons c t ih =>
      simp only [List.foldl_cons, ih, runnerStep, List.flatten_cons, List.append_assoc]
  simpa using this ⟨[], [], []⟩ chunks

/-- Total delivery of a run: the non-empty parts of the split of the full
concatenated stream (complete lines during streaming plus the flushed
trailing line at close). -/
theorem runnerRun_delivers (chunks : List (List Char)) :
    (runnerRun chunks).1 = (splitNl chunks.flatten).filter (fun l => l ≠ []) ∧
    (runnerRun chunks).2 = chunks.flatten := by
  have hinv := runnerInv_fold chunks
  have hout := runnerFold_output chunks
  obtain ⟨h1, h2⟩ := hinv
  constructor
  · show (chunks.foldl runnerStep ⟨[], [], []⟩).delivered ++
      closeFlush (chunks.foldl runnerStep ⟨[], [], []⟩).lineBuffer = _
    rw [h1, h2, hout]
    rw [splitNl_eq_termLines_append chunks.flatten, List.filter_append]
    congr 1
    unfold closeFlush
    by_cases hlp : lastPart chunks.flatten = []
    · rw [if_pos hlp, hlp]
      simp
    · rw [if_neg hlp]
      simp [hlp]
  · exact hout

theorem replaceAllGo_of_not_hasSub {p : Char} {ps rep : List Char} :
    ∀ {fuel : Nat} {s : List Char}, hasSub s (p :: ps) = false →
      replaceAllGo p ps rep fuel s = s := by
  intro fuel
  induction fuel with
  | zero => intro s _; cases s <;> rfl
  | succ f ih =>
    intro s h
    cases s with
    | nil => rfl
    | cons c rest =>
      simp only [hasSub, Bool.or_eq_false_iff] at h
      unfold replaceAllGo
      rw [if_neg (by simp [h.1]), ih h.2]

theorem replaceAll_of_not_hasSub {s pat rep : List Char}
    (h : hasSub s pat = false) : replaceAll s pat rep = s := by
  cases pat with
  | nil => rfl
  | cons p ps => exact replaceAllGo_of_not_hasSub h

theorem splitFirstNE_length {p : Char} {ps : List Char} :
    ∀ {s b a : List Char}, splitFirstNE p ps s = some (b, a) → a.length < s.length := by
  intro s
  induction s with
  | nil => intro b a h; simp [splitFirstNE] at h
  | cons c rest ih =>
    intro b a h
    unfold splitFirstNE at h
    split at h
    · simp only [Option.some.injEq, Prod.mk.injEq] at h
      rw [← h.2]
      simp only [List.length_drop, List.length_cons]
      omega
    · revert h
      cases hrec : splitFirstNE p ps rest with
      | none => intro h; simp at h
      | some ba =>
        intro h
        have hba : splitFirstNE p ps rest = some (ba.1, ba.2) := by rw [hrec]
        have hlt := ih hba
        simp only [Option.some.injEq, Prod.mk.injEq] at h
        rw [← h.2]
        simp only [List.length_cons]
        omega

theorem splitFirstNE_of_not_hasSub {p : Char} {ps : List Char} :
    ∀ {s : List Char}, hasSub s (p :: ps) = false → splitFirstNE p ps s = none := by
  intro s
  induction s with
  | nil => intro _; rfl
  | cons c rest ih =>
    intro h
    simp only [hasSub, Bool.or_eq_false_iff] at h
    unfold splitFirstNE
    rw [if_neg (by simp [h.1]), ih h.2]

theorem renderCondNE_of_not_hasSub {o : Char} {os : List Char} (c0 : Char) (cs : List Char)
    (inc : Bool) {s : List Char} (h : hasSub s (o :: os) = false) :
    renderCondNE o os c0 cs inc s = s := by
  unfold renderCondNE
  cases hl : s.length with
  | zero => rfl
  | succ n =>
    unfold renderCondGo
    rw [splitFirstNE_of_not_hasSub h]

theorem renderCondBlock_of_not_hasSub {s : List Char} {tag : List Char} {inc : Bool}
    (h : hasSub s (openTagOf tag) = false) : renderCondBlock s tag inc = s :=
  renderCondNE_of_not_hasSub _ _ _ h

theorem head?_dropWhile {p : Char → Bool} :
    ∀ {l : List Char} {c : Char}, (l.dropWhile p).head? = some c → p c = false := by
  intro l
  induction l with
  | nil => intro c h; simp [List.dropWhile] at h
  | cons x rest ih =>
    intro c h
    rw [List.dropWhile_cons] at h
    split at h
    · exact ih h
    · rename_i hx
      simp only [List.head?_cons, Option.some.injEq] at h
      rw [← h]
      exact Bool.eq_false_iff.mpr hx

theorem dropWhile_eq_self_of_head {p : Char → Bool} {l : List Char}
    (h : ∀ c, l.head? = some c → p c = false) : l.dropWhile p = l := by
  cases l with
  | nil => rfl
  | cons x rest =>
    rw [List.dropWhile_cons, if_neg]
    rw [h x rfl]
    simp

theorem dropWhile_idem {p : Char → Bool} (l : List Char) :
    (l.dropWhile p).dropWhile p = l.dropWhile p :=
  dropWhile_eq_self_of_head (fun _ h => head?_dropWhile h)

theorem trimChars_idem (s : List Char) : trimChars (trimChars s) = trimChars s := by
  unfold trimChars
  set u := s.dropWhile isWsChar with hu
  set v := u.reverse.dropWhile isWsChar with hv
  have hvrev : v.reverse.reverse = v := List.reverse_reverse v
  have hdecomp : u.reverse = u.reverse.takeWhile isWsChar ++ v := by
    rw [hv, List.takeWhile_append_dropWhile]
  have huval : u = v.reverse ++ (u.reverse.takeWhile isWsChar).reverse := by
    have := congrArg List.reverse hdecomp
    rw [List.reverse_reverse, List.reverse_append] at this
    exact this
  have hheadfalse : ∀ c, v.reverse.head? = some c → isWsChar c = false := by
    intro c hc
    cases hvr : v.reverse with
    | nil => rw [hvr] at hc; simp at hc
    | cons x t =>
      rw [hvr] at hc
      simp only [List.head?_cons, Option.some.injEq] at hc
      have huhead : u.head? = some c := by
        rw [huval, hvr, ← hc]
        simp
      exact head?_dropWhile (hu ▸ huhead)
  rw [dropWhile_eq_self_of_head hheadfalse, hvrev, dropWhile_idem]

theorem foldl_replaceAll_of_not_hasSub {subs : List (List Char × List Char)} :
    ∀ {s : List Char}, (∀ tv ∈ subs, hasSub s tv.1 = false) →
      subs.foldl (fun acc tv => replaceAll acc tv.1 tv.2) s = s := by
  induction subs with
  | nil => intro s _; rfl
  | cons tv rest ih =>
    intro s h
    rw [List.foldl_cons, replaceAll_of_not_hasSub (h tv (List.mem_cons_self tv rest))]
    exact ih (fun tv' htv' => h tv' (List.mem_cons_of_mem tv htv'))

theorem alookup_mem {α : Type} : ∀ {l : List (String × α)} {k : String} {v : α},
    alookup l k = some v → (k, v) ∈ l := by
  intro l
  induction l with
  | nil => intro k v h; simp [alookup] at h
  | cons kv rest ih =>
    intro k v h
    unfold alookup at h
    split at h
    · rename_i heq
      simp only [Option.some.injEq] at h
      rw [← heq, ← h]
      exact List.mem_cons_self kv rest
    · exact List.mem_cons_of_mem kv (ih h)

theorem projCount_aset_le (ws : List (String × ActiveWorker)) (k : String)
    (v : ActiveWorker) (pid : String) :
    projCount (aset ws k v) pid ≤
      projCount ws pid + (if v.project.id = pid then 1 else 0) := by
  induction ws with
  | nil => simp [aset, projCount]
  | cons kw rest ih =>
    obtain ⟨k', w'⟩ := kw
    simp only [aset]
    split
    · simp only [projCount]
      omega
    · simp only [projCount]
      omega

theorem projCount_aerase_le (ws : List (String × ActiveWorker)) (k : String)
    (pid : String) : projCount (aerase ws k) pid ≤ projCount ws pid := by
  induction ws with
  | nil => simp [aerase, projCount]
  | cons kw rest ih =>
    obtain ⟨k', w'⟩ := kw
    simp only [aerase]
    split
    · simp only [projCount]
      omega
    · simp only [projCount]
      omega

theorem wsCapsOK_aerase {cfg : OrchConfig} {projects : List (String × Project)}
    {ws : List (String × ActiveWorker)} (h : WsCapsOK cfg projects ws) (k : String) :
    WsCapsOK cfg projects (aerase ws k) := by
  refine ⟨Nat.le_trans (aerase_length_le ws k) h.1, ?_⟩
  intro pid p hp
  exact Nat.le_trans (projCount_aerase_le ws k pid) (h.2 pid p hp)

theorem tickGo_caps {cfg : OrchConfig} {db : Db} (hwf : ProjectsWF db.projects) :
    ∀ (q : List ExecutionJob) (ws : List (String × ActiveWorker)),
      WsCapsOK cfg db.projects ws →
      WsCapsOK cfg db.projects (tickGo cfg db q ws).2.1 := by
  intro q
  induction q with
  | nil => intro ws h; exact h
  | cons j rest ih =>
    intro ws h
    unfold tickGo
    split
    · exact h
    · rename_i hlen
      have hlen' : ws.length < cfg.maxWorkers := Nat.lt_of_not_le hlen
      cases hht : db.findTicket j.ticketId with
      | none => exact ih ws h
      | some t =>
        dsimp only
        cases hhp : db.findProject t.projectId with
        | none => exact ih ws h
        | some p =>
          dsimp only
          split
          · exact ih ws h
          · rename_i hcap
            have hcap' : projCount ws p.id < p.settings.maxParallelJobs :=
              Nat.lt_of_not_le hcap
            apply ih
            constructor
            · exact Nat.le_trans (aset_length_le ws t.id _) hlen'
            · intro pid p' hp'
              have hle := projCount_aset_le ws t.id ⟨j, t, p⟩ pid
              by_cases hpid : p.id = pid
              · have hpid' : p.id = t.projectId :=
                  hwf (t.projectId, p) (alookup_mem hhp)
                have hpp' : p' = p := by
                  rw [← hpid, hpid'] at hp'
                  have hhp2 : alookup db.projects t.projectId = some p := hhp
                  rw [hhp2] at hp'
                  exact (Option.some.inj hp').symm
                rw [if_pos hpid] at hle
                rw [hpp']
                calc projCount (aset ws t.id ⟨j, t, p⟩) pid
                    ≤ projCount ws pid + 1 := hle
                  _ ≤ p.settings.maxParallelJobs := by
                      rw [← hpid]
                      omega
              · rw [if_neg hpid, Nat.add_zero] at hle
                exact Nat.le_trans hle (h.2 pid p' hp')

theorem startWorkerEffects_shape (s : OrchState) (j : ExecutionJob) :
    (startWorkerEffects s j).db.projects = s.db.projects ∧
    (startWorkerEffects s j).activeWorkers = s.activeWorkers := ⟨rfl, rfl⟩

theorem foldl_startWorker_shape (l : List ExecutionJob) :
    ∀ s : OrchState,
      ((l.foldl startWorkerEffects s).db.projects = s.db.projects ∧
       (l.foldl startWorkerEffects s).activeWorkers = s.activeWorkers) := by
  induction l with
  | nil => intro s; exact ⟨rfl, rfl⟩
  | cons j rest ih =>
    intro s
    rw [List.foldl_cons]
    exact ⟨(ih (startWorkerEffects s j)).1, (ih (startWorkerEffects s j)).2⟩

theorem tick_caps {cfg : OrchConfig} {s : OrchState}
    (hwf : ProjectsWF s.db.projects) (h : SchedCapsOK cfg s) :
    SchedCapsOK cfg (Orchestrator.tick cfg s) := by
  unfold Orchestrator.tick
  split
  · exact h
  · unfold SchedCapsOK
    rw [(foldl_startWorker_shape _ _).1, (foldl_startWorker_shape _ _).2]
    exact tickGo_caps hwf s.queue s.activeWorkers h

theorem tick_projects (cfg : OrchConfig) (s : OrchState) :
    (Orchestrator.tick cfg s).db.projects = s.db.projects := by
  unfold Orchestrator.tick
  split
  · rfl
  · exact (foldl_startWorker_shape _ _).1

theorem cancel_shape (s : OrchState) (tid : String) :
    (Orchestrator.cancel s tid).db.projects = s.db.projects ∧
    ((Orchestrator.cancel s tid).activeWorkers = s.activeWorkers ∨
     (Orchestrator.cancel s tid).activeWorkers = aerase s.activeWorkers tid) := by
  unfold Orchestrator.cancel
  dsimp only
  cases (removeFirstJob s.queue tid).1 <;> dsimp only <;>
    cases alookup s.activeWorkers tid <;>
      first
        | exact ⟨rfl, Or.inl rfl⟩
        | exact ⟨rfl, Or.inr rfl⟩

theorem finishWorker_shape (cfg : OrchConfig) (s : OrchState) (tid : String)
    (succeeded : Bool) (errMsg : Option String) :
    (Orchestrator.finishWorker cfg s tid succeeded errMsg = s) ∨
    (∃ s', Orchestrator.finishWorker cfg s tid succeeded errMsg = Orchestrator.tick cfg s' ∧
      s'.db.projects = s.db.projects ∧ s'.activeWorkers = aerase s.activeWorkers tid) := by
  unfold Orchestrator.finishWorker
  cases alookup s.activeWorkers tid with
  | none => exact Or.inl rfl
  | some w =>
    dsimp only
    cases succeeded with
    | true =>
      rw [if_pos rfl]
      exact Or.inr ⟨_, rfl, rfl, rfl⟩
    | false =>
      rw [if_neg (by simp)]
      exact Or.inr ⟨_, rfl, rfl, rfl⟩

theorem planReview_shape (cfg : OrchConfig) (s : OrchState) (tid : String) (plan : String) :
    (Orchestrator.planReviewFinish cfg s tid plan = s) ∨
    (∃ s', Orchestrator.planReviewFinish cfg s tid plan = Orchestrator.tick cfg s' ∧
      s'.db.projects = s.db.projects ∧ s'.activeWorkers = aerase s.activeWorkers tid) := by
  unfold Orchestrator.planReviewFinish
  cases alookup s.activeWorkers tid with
  | none => exact Or.inl rfl
  | some w =>
    dsimp only
    exact Or.inr ⟨_, rfl, rfl, rfl⟩

theorem enqueuePlan_shape (cfg : OrchConfig) (s : OrchState) (t : Ticket) (p : Project) :
    ∃ s', Orchestrator.enqueuePlan cfg s t p = Orchestrator.tick cfg s' ∧
      s'.db.projects = s.db.projects ∧ s'.activeWorkers = s.activeWorkers := by
  unfold Orchestrator.enqueuePlan
  exact ⟨_, rfl, rfl, rfl⟩

theorem enqueueExecute_shape (cfg : OrchConfig) (s : OrchState) (t : Ticket) (p : Project) :
    ∃ s', Orchestrator.enqueueExecute cfg s t p = Orchestrator.tick cfg s' ∧
      s'.db.projects = s.db.projects ∧ s'.activeWorkers = s.activeWorkers := by
  unfold Orchestrator.enqueueExecute
  exact ⟨_, rfl, rfl, rfl⟩

theorem applyOp_projects (cfg : OrchConfig) (s : OrchState) (op : Op) :
    (applyOp cfg s op).db.projects = s.db.projects := by
  cases op with
  | enqueuePlan t p =>
    obtain ⟨s', heq, hp, _⟩ := enqueuePlan_shape cfg s t p
    show (Orchestrator.enqueuePlan cfg s t p).db.projects = _
    rw [heq, tick_projects, hp]
  | enqueueExecute t p =>
    obtain ⟨s', heq, hp, _⟩ := enqueueExecute_shape cfg s t p
    show (Orchestrator.enqueueExecute cfg s t p).db.projects = _
    rw [heq, tick_projects, hp]
  | cancel tid => exact (cancel_shape s tid).1
  | tick => exact tick_projects cfg s
  | planReview tid plan =>
    rcases planReview_shape cfg s tid plan with heq | ⟨s', heq, hp, _⟩
    · show (Orchestrator.planReviewFinish cfg s tid plan).db.projects = _
      rw [heq]
    · show (Orchestrator.planReviewFinish cfg s tid plan).db.projects = _
      rw [heq, tick_projects, hp]
  | finishSuccess tid =>
    rcases finishWorker_shape cfg s tid true none with heq | ⟨s', heq, hp, _⟩
    · show (Orchestrator.finishWorker cfg s tid true none).db.projects = _
      rw [heq]
    · show (Orchestrator.finishWorker cfg s tid true none).db.projects = _
      rw [heq, tick_projects, hp]
  | finishFailure tid msg =>
    rcases finishWorker_shape cfg s tid false (some msg) with heq | ⟨s', heq, hp, _⟩
    · show (Orchestrator.finishWorker cfg s tid false (some msg)).db.projects = _
      rw [heq]
    · show (Orchestrator.finishWorker cfg s tid false (some msg)).db.projects = _
      rw [heq, tick_projects, hp]

theorem schedCapsOK_of_parts {cfg : OrchConfig} {s' : OrchState}
    {projects : List (String × Project)} {ws : List (String × ActiveWorker)}
    (hp : s'.db.projects = projects) (hw : s'.activeWorkers = ws)
    (h : WsCapsOK cfg projects ws) : SchedCapsOK cfg s' := by
  unfold SchedCapsOK
  rw [hp, hw]
  exact h

theorem applyOp_caps {cfg : OrchConfig} {s : OrchState} {op : Op}
    (hwf : ProjectsWF s.db.projects) (h : SchedCapsOK cfg s) :
    SchedCapsOK cfg (applyOp cfg s op) := by
  cases op with
  | enqueuePlan t p =>
    obtain ⟨s', heq, hp, hw⟩ := enqueuePlan_shape cfg s t p
    show SchedCapsOK cfg (Orchestrator.enqueuePlan cfg s t p)
    rw [heq]
    exact tick_caps (hp ▸ hwf) (schedCapsOK_of_parts hp hw h)
  | enqueueExecute t p =>
    obtain ⟨s', heq, hp, hw⟩ := enqueueExecute_shape cfg s t p
    show SchedCapsOK cfg (Orchestrator.enqueueExecute cfg s t p)
    rw [heq]
    exact tick_caps (hp ▸ hwf) (schedCapsOK_of_parts hp hw h)
  | cancel tid =>
    obtain ⟨hp, hw⟩ := cancel_shape s tid
    show SchedCapsOK cfg (Orchestrator.cancel s tid)
    rcases hw with hw | hw
    · exact schedCapsOK_of_parts hp hw h
    · exact schedCapsOK_of_parts hp hw (wsCapsOK_aerase h tid)
  | tick => exact tick_caps hwf h
  | planReview tid plan =>
    show SchedCapsOK cfg (Orchestrator.planReviewFinish cfg s tid plan)
    rcases planReview_shape cfg s tid plan with heq | ⟨s', heq, hp, hw⟩
    · rw [heq]; exact h
    · rw [heq]
      exact tick_caps (hp ▸ hwf) (schedCapsOK_of_parts hp hw (wsCapsOK_aerase h tid))
  | finishSuccess tid =>
    show SchedCapsOK cfg (Orchestrator.finishWorker cfg s tid true none)
    rcases finishWorker_shape cfg s tid true none with heq | ⟨s', heq, hp, hw⟩
    · rw [heq]; exact h
    · rw [heq]
      exact tick_caps (hp ▸ hwf) (schedCapsOK_of_parts hp hw (wsCapsOK_aerase h tid))
  | finishFailure tid msg =>
    show SchedCapsOK cfg (Orchestrator.finishWorker cfg s tid false (some msg))
    rcases finishWorker_shape cfg s tid false (some msg) with heq | ⟨s', heq, hp, hw⟩
    · rw [heq]; exact h
    · rw [heq]
      exact tick_caps (hp ▸ hwf) (schedCapsOK_of_parts hp hw (wsCapsOK_aerase h tid))

theorem runOps_projects (cfg : OrchConfig) (ops : List Op) :
    ∀ s : OrchState, (runOps cfg s ops).db.projects = s.db.projects := by
  induction ops with
  | nil => intro s; rfl
  | cons op rest ih =>
    intro s
    show (runOps cfg (applyOp cfg s op) rest).db.projects = _
    rw [ih, applyOp_projects]

theorem runOps_caps {cfg : OrchConfig} (ops : List Op) :
    ∀ {s : OrchState}, ProjectsWF s.db.projects → SchedCapsOK cfg s →
      SchedCapsOK cfg (runOps cfg s ops) := by
  induction ops with
  | nil => intro s _ h; exact h
  | cons op rest ih =>
    intro s hwf h
    show SchedCapsOK cfg (runOps cfg (applyOp cfg s op) rest)
    exact ih (by rw [applyOp_projects]; exact hwf) (applyOp_caps hwf h)

/-- A job whose project is at its per-project cap is skipped in place: it
keeps its queue position while the scan continues with the later jobs. -/
theorem tickGo_skip {cfg : OrchConfig} {db : Db} {j : ExecutionJob}
    {rest : List ExecutionJob} {ws : List (String × ActiveWorker)} {t : Ticket}
    {p : Project} (hlen : ws.length < cfg.maxWorkers)
    (ht : db.findTicket j.ticketId = some t)
    (hp : db.findProject t.projectId = some p)
    (hcap : p.settings.maxParallelJobs ≤ projCount ws p.id) :
    tickGo cfg db (j :: rest) ws =
      (j :: (tickGo cfg db rest ws).1,
       (tickGo cfg db rest ws).2.1,
       (tickGo cfg db rest ws).2.2) := by
  conv_lhs => rw [tickGo.eq_def]
  dsimp only
  rw [if_neg (Nat.not_le_of_lt hlen), ht]
  dsimp only
  rw [hp]
  dsimp only
  rw [if_pos hcap]

theorem execLoop_invocations_le (mr jid : Nat) (agent : Nat → Int)
    (tc : Option (Nat → Int × String)) :
    ∀ (fuel rc inv tests : Nat),
      (execLoop mr jid agent tc fuel rc inv tests).invocations ≤ inv + fuel := by
  intro fuel
  induction fuel with
  | zero => intro rc inv tests; simp [execLoop]
  | succ f ih =>
    intro rc inv tests
    unfold execLoop
    by_cases h1 : mr < rc
    · rw [if_pos h1]; dsimp only; omega
    · rw [if_neg h1]
      try dsimp only
      by_cases h2 : agent inv ≠ 0
      · rw [if_pos h2]; dsimp only; omega
      · rw [if_neg h2]
        cases tc with
        | none => dsimp only; omega
        | some t =>
          try dsimp only
          by_cases h3 : (t tests).1 = 0
          · rw [if_pos h3]; dsimp only; omega
          · rw [if_neg h3]
            try dsimp only
            by_cases h4 : mr < rc + 1
            · rw [if_pos h4]; dsimp only; omega
            · rw [if_neg h4]
              try dsimp only
              have := ih (rc + 1) (inv + 1) (tests + 1)
              omega

theorem execLoop_increments_all (mr jid : Nat) (agent : Nat → Int)
    (tc : Option (Nat → Int × String)) :
    ∀ (fuel rc inv tests : Nat),
      (execLoop mr jid agent tc fuel rc inv tests).retryIncrements.all
        (fun x => x == jid) = true := by
  intro fuel
  induction fuel with
  | zero => intro rc inv tests; simp [execLoop]
  | succ f ih =>
    intro rc inv tests
    unfold execLoop
    by_cases h1 : mr < rc
    · rw [if_pos h1]; rfl
    · rw [if_neg h1]
      try dsimp only
      by_cases h2 : agent inv ≠ 0
      · rw [if_pos h2]; rfl
      · rw [if_neg h2]
        cases tc with
        | none => rfl
        | some t =>
          try dsimp only
          by_cases h3 : (t tests).1 = 0
          · rw [if_pos h3]; rfl
          · rw [if_neg h3]
            try dsimp only
            by_cases h4 : mr < rc + 1
            · rw [if_pos h4]; simp
            · rw [if_neg h4]
              try dsimp only
              simp only [List.all_cons, beq_self_eq_true, Bool.true_and]
              exact ih (rc + 1) (inv + 1) (tests + 1)

theorem execLoop_writes_pair_events (mr jid : Nat) (agent : Nat → Int)
    (tc : Option (Nat → Int × String)) :
    ∀ (fuel rc inv tests : Nat),
      (execLoop mr jid agent tc fuel rc inv tests).writes.map Prod.fst =
        (execLoop mr jid agent tc fuel rc inv tests).tsEvents := by
  intro fuel
  induction fuel with
  | zero => intro rc inv tests; simp [execLoop]
  | succ f ih =>
    intro rc inv tests
    unfold execLoop
    by_cases h1 : mr < rc
    · rw [if_pos h1]; rfl
    · rw [if_neg h1]
      try dsimp only
      by_cases h2 : agent inv ≠ 0
      · rw [if_pos h2]; rfl
      · rw [if_neg h2]
        cases tc with
        | none => rfl
        | some t =>
          try dsimp only
          by_cases h3 : (t tests).1 = 0
          · rw [if_pos h3]; rfl
          · rw [if_neg h3]
            try dsimp only
            by_cases h4 : mr < rc + 1
            · rw [if_pos h4]; rfl
            · rw [if_neg h4]
              try dsimp only
              simp only [List.map_cons]
              rw [ih (rc + 1) (inv + 1) (tests + 1)]

/-- With a configured always-failing test command and an agent that always
exits 0, the loop performs exactly one agent invocation per remaining
attempt, increments the job retry counter each time, and throws the
terminal message built from `maxRetries` and the last failure output. -/
theorem execLoop_allfail (mr jid : Nat) (agent : Nat → Int) (t : Nat → Int × String)
    (hagent : ∀ n, agent n = 0) (htest : ∀ n, (t n).1 ≠ 0) :
    ∀ (fuel rc inv tests : Nat), rc + fuel = mr + 1 → 1 ≤ fuel →
      execLoop mr jid agent (some t) fuel rc inv tests =
        ⟨inv + fuel, List.replicate fuel jid,
         List.replicate fuel (.testing, none), List.replicate fuel .testing,
         mr + 1,
         .error ("Tests still failing after " ++ toString mr ++
           " retries.\n\nLast error:\n" ++ (t (tests + fuel - 1)).2)⟩ := by
  intro fuel
  induction fuel with
  | zero => intro rc inv tests _ h1; omega
  | succ f ih =>
    intro rc inv tests hsum _
    unfold execLoop
    rw [if_neg (by omega)]
    try dsimp only
    rw [if_neg (by simp [hagent inv])]
    try dsimp only
    rw [if_neg (htest tests)]
    try dsimp only
    cases f with
    | zero =>
      rw [if_pos (by omega)]
      have hrc : rc = mr := by omega
      simp [hrc, List.replicate]
    | succ g =>
      rw [if_neg (by omega)]
      try dsimp only
      rw [ih (rc + 1) (inv + 1) (tests + 1) (by omega) (by omega)]
      have h1 : tests + 1 + (g + 1) - 1 = tests + (g + 1 + 1) - 1 := by omega
      have h2 : inv + 1 + (g + 1) = inv + (g + 1 + 1) := by omega
      simp only [h1, h2, List.replicate]

/-- The full execute phase under the all-fail scenario: `maxRetries + 1`
agent invocations, `maxRetries + 1` retry increments on the same job row,
a terminal `failed` write carrying the retry count and the last test
output, and *no* metadata write (the `setMetadata` call is only reached on
the success path). -/
theorem runExecutePhase_allfail (cfg : OrchConfig) (p : Project) (t : Ticket)
    (jobId : Nat) (env : ExecEnv) (cmd : String)
    (hagent : ∀ n, env.agentExit n = 0)
    (htest : ∀ n, (env.testRun n).1 ≠ 0)
    (hcmd : effectiveCommand p.settings.testCommand env.stackTestCommand = some cmd) :
    runExecutePhase cfg p t jobId env =
      { invocations := cfg.maxRetries + 1,
        retryIncrements := List.replicate (cfg.maxRetries + 1) jobId,
        writes := [(.in_progress, none)] ++
          List.replicate (cfg.maxRetries + 1) (.testing, none) ++
          [(.failed, some ("Tests still failing after " ++ toString cfg.maxRetries ++
            " retries.\n\nLast error:\n" ++ (env.testRun cfg.maxRetries).2))],
        tsEvents := [.in_progress] ++ List.replicate (cfg.maxRetries + 1) .testing ++
          [.failed],
        metadataWrite := none,
        branchAssigned :=
          String.mk (branchFor cfg.branchPref.data t.id.data t.title.data),
        jobFinal := (.failed, some 1) } := by
  unfold runExecutePhase
  rw [hcmd]
  dsimp only [Option.map]
  rw [execLoop_allfail cfg.maxRetries jobId env.agentExit env.testRun hagent htest
    (cfg.maxRetries + 1) 0 0 0 (by omega) (by omega)]
  try dsimp only
  simp

theorem countActive_append (jobs : List ExecutionJob) (j : ExecutionJob) (tid : String) :
    countActive (jobs ++ [j]) tid =
      countActive jobs tid + (if activeRow j tid then 1 else 0) := by
  induction jobs with
  | nil => simp [countActive]
  | cons r rest ih =>
    rw [List.cons_append]
    unfold countActive
    rw [ih]
    omega

/-- Marking a job id `completed` or `failed` never increases any ticket's
active count. -/
theorem countActive_mark_inactive_le (jobs : List ExecutionJob) (jid : Nat)
    {st : JobStatus} (hst : st = .completed ∨ st = .failed)
    (sa ca : Option Unit) (ec : Option Int) (tid : String) :
    countActive (jobs.map (fun j =>
      if j.id = jid then applyJobStatus j st sa ca ec else j)) tid ≤
    countActive jobs tid := by
  induction jobs with
  | nil => simp [countActive]
  | cons r rest ih =>
    simp only [List.map_cons, countActive]
    have hrow : (if activeRow (if r.id = jid then applyJobStatus r st sa ca ec else r) tid
        then 1 else 0) ≤ (if activeRow r tid then 1 else 0) := by
      by_cases hid : r.id = jid
      · rw [if_pos hid]
        have hnot : ¬ activeRow (applyJobStatus r st sa ca ec) tid := by
          unfold activeRow applyJobStatus
          rcases hst with h | h <;> simp [h]
        rw [if_neg hnot]
        exact Nat.zero_le _
      · rw [if_neg hid]
    omega

/-- Marking a pending job id `running` keeps every ticket's active count
unchanged. -/
theorem countActive_mark_running (jobs : List ExecutionJob) (jid : Nat)
    (sa ca : Option Unit) (ec : Option Int)
    (hpend : ∀ r ∈ jobs, r.id = jid → r.status = .pending) (tid : String) :
    countActive (jobs.map (fun j =>
      if j.id = jid then applyJobStatus j .running sa ca ec else j)) tid =
    countActive jobs tid := by
  induction jobs with
  | nil => simp [countActive]
  | cons r rest ih
  =>
    simp only [List.map_cons, countActive]
    have hrest := ih (fun r hr hid => hpend r (List.mem_cons_of_mem _ hr) hid)
    have hrow : (if activeRow (if r.id = jid then applyJobStatus r .running sa ca ec else r)
        tid then 1 else 0) = (if activeRow r tid then 1 else 0) := by
      by_cases hid : r.id = jid
      · rw [if_pos hid]
        have hp := hpend r (List.mem_cons_self r rest) hid
        have h1 : activeRow (applyJobStatus r .running sa ca ec) tid ↔ activeRow r tid := by
          unfold activeRow applyJobStatus
          simp [hp]
        by_cases ha : activeRow r tid
        · rw [if_pos (h1.mpr ha), if_pos ha]
        · rw [if_neg (fun hx => ha (h1.mp hx)), if_neg ha]
      · rw [if_neg hid]
    omega

/-- Ids and ticket references of job rows are untouched by status updates:
every resulting row descends from an original row with the same id and
ticket. -/
theorem mem_updateJobStatus {db : Db} {jid : Nat} {st : JobStatus}
    {sa ca : Option Unit} {ec : Option Int} :
    ∀ r' ∈ (db.updateJobStatus jid st sa ca ec).jobs,
      ∃ r ∈ db.jobs, r'.id = r.id ∧ r'.ticketId = r.ticketId := by
  intro r' hr'
  unfold Db.updateJobStatus at hr'
  simp only [List.mem_map] at hr'
  obtain ⟨r, hr, heq⟩ := hr'
  refine ⟨r, hr, ?_, ?_⟩ <;>
    · rw [← heq]
      by_cases hid : r.id = jid
      · rw [if_pos hid]; rfl
      · rw [if_neg hid]

/-- `rowsPendingFor` survives a status update of a *different* job id. -/
theorem rowsPendingFor_mark_other {db : Db} {jid other : Nat}
    (h : rowsPendingFor db jid) (hne : other ≠ jid) (st : JobStatus)
    (sa ca : Option Unit) (ec : Option Int) :
    rowsPendingFor (db.updateJobStatus other st sa ca ec) jid := by
  intro r hr hid
  unfold Db.updateJobStatus at hr
  simp only [List.mem_map] at hr
  obtain ⟨r0, hr0, heq⟩ := hr
  by_cases h0 : r0.id = other
  · rw [if_pos h0] at heq
    have : r.id = r0.id := by rw [← heq]; rfl
    rw [hid, h0] at this
    exact absurd this.symm hne
  · rw [if_neg h0] at heq
    rw [← heq] at hid ⊢
    exact h r0 hr0 hid

/-- `rowsPendingFor` survives appending a fresh pending row. -/
theorem rowsPendingFor_createJob {db : Db} {jid : Nat} (h : rowsPendingFor db jid)
    (n : Nat) (tid : String) (ph : JobPhase) (lp : String) :
    rowsPendingFor (db.createJob n tid ph lp).2 jid := by
  intro r hr hid
  unfold Db.createJob at hr
  simp only [List.mem_append, List.mem_singleton] at hr
  rcases hr with hr | hr
  · exact h r hr hid
  · rw [hr]

/-- A fresh id is pending in the store extended with its row, provided no
old row reuses the id. -/
theorem rowsPendingFor_fresh {db : Db} {n : Nat}
    (hfresh : ∀ r ∈ db.jobs, r.id ≠ n) (tid : String) (ph : JobPhase) (lp : String) :
    rowsPendingFor (db.createJob n tid ph lp).2 n := by
  intro r hr hid
  unfold Db.createJob at hr
  simp only [List.mem_append, List.mem_singleton] at hr
  rcases hr with hr | hr
  · exact absurd hid (hfresh r hr)
  · rw [hr]

/-- Ticket-table updates leave the job rows untouched. -/
theorem updateTicketStatus_jobs (db : Db) (tid : String) (st : TicketStatus)
    (sa ca : Option Unit) (err : Option String) :
    (db.updateTicketStatus tid st sa ca err).jobs = db.jobs := rfl

theorem removeFirstJob_none {q : List ExecutionJob} {tid : String}
    (h : (removeFirstJob q tid).1 = none) : (removeFirstJob q tid).2 = q := by
  induction q with
  | nil => rfl
  | cons j rest ih =>
    unfold removeFirstJob at h ⊢
    by_cases hj : j.ticketId = tid
    · rw [if_pos hj] at h
      simp at h
    · rw [if_neg hj] at h ⊢
      dsimp only at h ⊢
      rw [ih h]

theorem removeFirstJob_some {q : List ExecutionJob} {tid : String} {j : ExecutionJob}
    (h : (removeFirstJob q tid).1 = some j) :
    ∃ pre post, q = pre ++ j :: post ∧ (removeFirstJob q tid).2 = pre ++ post := by
  induction q with
  | nil => simp [removeFirstJob] at h
  | cons j0 rest ih =>
    unfold removeFirstJob at h ⊢
    by_cases hj : j0.ticketId = tid
    · rw [if_pos hj] at h ⊢
      dsimp only at h
      simp only [Option.some.injEq] at h
      refine ⟨[], rest, ?_, rfl⟩
      rw [h]
      rfl
    · rw [if_neg hj] at h ⊢
      dsimp only at h
      obtain ⟨pre, post, hq, hr⟩ := ih h
      refine ⟨j0 :: pre, post, ?_, ?_⟩
      · rw [hq]
        rfl
      · dsimp only
        rw [hr]
        rfl

theorem aerase_subset {α : Type} {l : List (String × α)} {k : String} :
    ∀ kv ∈ aerase l k, kv ∈ l := by
  induction l with
  | nil => intro kv h; simp [aerase] at h
  | cons hd tl ih =>
    intro kv h
    unfold aerase at h
    split at h
    · exact List.mem_cons_of_mem hd h
    · rcases List.mem_cons.mp h with h | h
      · rw [h]; exact List.mem_cons_self hd tl
      · exact List.mem_cons_of_mem hd (ih kv h)

theorem aset_mem {α : Type} {l : List (String × α)} {k : String} {v : α} :
    ∀ kv ∈ aset l k v, kv ∈ l ∨ kv = (k, v) := by
  induction l with
  | nil =>
    intro kv h
    simp only [aset, List.mem_singleton] at h
    exact Or.inr h
  | cons hd tl ih =>
    intro kv h
    unfold aset at h
    split at h
    · rcases List.mem_cons.mp h with h | h
      · exact Or.inr h
      · exact Or.inl (List.mem_cons_of_mem hd h)
    · rcases List.mem_cons.mp h with h | h
      · rw [h]; exact Or.inl (List.mem_cons_self hd tl)
      · rcases ih kv h with h | h
        · exact Or.inl (List.mem_cons_of_mem hd h)
        · exact Or.inr h

theorem tickGo_sublists (cfg : OrchConfig) (db : Db) :
    ∀ (q : List ExecutionJob) (ws : List (String × ActiveWorker)),
      List.Sublist (tickGo cfg db q ws).1 q ∧
      List.Sublist (tickGo cfg db q ws).2.2 q := by
  intro q
  induction q with
  | nil =>
    intro ws
    exact ⟨List.Sublist.refl _, List.Sublist.refl _⟩
  | cons j rest ih =>
    intro ws
    unfold tickGo
    by_cases h1 : cfg.maxWorkers ≤ ws.length
    · rw [if_pos h1]
      exact ⟨List.Sublist.refl _, List.nil_sublist _⟩
    · rw [if_neg h1]
      cases hht : db.findTicket j.ticketId with
      | none => exact ⟨(ih ws).1.cons j, (ih ws).2.cons j⟩
      | some t =>
        dsimp only
        cases hhp : db.findProject t.projectId with
        | none => exact ⟨(ih ws).1.cons j, (ih ws).2.cons j⟩
        | some p =>
          dsimp only
          by_cases hcap : p.settings.maxParallelJobs ≤ projCount ws p.id
          · rw [if_pos hcap]
            exact ⟨(ih ws).1.cons₂ j, (ih ws).2.cons j⟩
          · rw [if_neg hcap]
            exact ⟨(ih _).1.cons j, (ih _).2.cons₂ j⟩

theorem tickGo_cross (cfg : OrchConfig) (db : Db) :
    ∀ (q : List ExecutionJob) (ws : List (String × ActiveWorker)),
      q.Pairwise (fun a b => a.id ≠ b.id) →
      ∀ j₁ ∈ (tickGo cfg db q ws).1, ∀ j₂ ∈ (tickGo cfg db q ws).2.2, j₁.id ≠ j₂.id := by
  intro q
  induction q with
  | nil =>
    intro ws _ j₁ h₁ j₂ h₂
    simp [tickGo] at h₂
  | cons j rest ih =>
    intro ws hq j₁ h₁ j₂ h₂
    rw [List.pairwise_cons] at hq
    unfold tickGo at h₁ h₂
    by_cases h1 : cfg.maxWorkers ≤ ws.length
    · rw [if_pos h1] at h₁ h₂
      simp at h₂
    · rw [if_neg h1] at h₁ h₂
      cases hht : db.findTicket j.ticketId with
      | none =>
        rw [hht] at h₁ h₂
        dsimp only at h₁ h₂
        exact ih ws hq.2 j₁ h₁ j₂ h₂
      | some t =>
        rw [hht] at h₁ h₂
        dsimp only at h₁ h₂
        cases hhp : db.findProject t.projectId with
        | none =>
          rw [hhp] at h₁ h₂
          dsimp only at h₁ h₂
          exact ih ws hq.2 j₁ h₁ j₂ h₂
        | some p =>
          rw [hhp] at h₁ h₂
          dsimp only at h₁ h₂
          by_cases hcap : p.settings.maxParallelJobs ≤ projCount ws p.id
          · rw [if_pos hcap] at h₁ h₂
            dsimp only at h₁ h₂
            rcases List.mem_cons.mp h₁ with h₁ | h₁
            · subst h₁
              exact hq.1 j₂ ((tickGo_sublists cfg db rest ws).2.subset h₂)
            · exact ih ws hq.2 j₁ h₁ j₂ h₂
          · rw [if_neg hcap] at h₁ h₂
            dsimp only at h₁ h₂
            rcases List.mem_cons.mp h₂ with h₂ | h₂
            · subst h₂
              exact fun he =>
                (hq.1 j₁ ((tickGo_sublists cfg db rest _).1.subset h₁)) he.symm
            · exact ih _ hq.2 j₁ h₁ j₂ h₂

theorem tickGo_workers_mem (cfg : OrchConfig) (db : Db) :
    ∀ (q : List ExecutionJob) (ws : List (String × ActiveWorker)) (kw : String × ActiveWorker),
      kw ∈ (tickGo cfg db q ws).2.1 →
      kw ∈ ws ∨ (kw.2 : ActiveWorker).job ∈ (tickGo cfg db q ws).2.2 := by
  intro q
  induction q with
  | nil =>
    intro ws kw h
    exact Or.inl h
  | cons j rest ih =>
    intro ws kw h
    unfold tickGo at h ⊢
    by_cases h1 : cfg.maxWorkers ≤ ws.length
    · rw [if_pos h1] at h ⊢
      exact Or.inl h
    · rw [if_neg h1] at h ⊢
      cases hht : db.findTicket j.ticketId with
      | none =>
        rw [hht] at h
        dsimp only at h ⊢
        rcases ih ws kw h with hmem | hmem
        · exact Or.inl hmem
        · exact Or.inr hmem
      | some t =>
        rw [hht] at h
        dsimp only at h ⊢
        cases hhp : db.findProject t.projectId with
        | none =>
          rw [hhp] at h
          dsimp only at h ⊢
          rcases ih ws kw h with hmem | hmem
          · exact Or.inl hmem
          · exact Or.inr hmem
        | some p =>
          rw [hhp] at h
          dsimp only at h ⊢
          by_cases hcap : p.settings.maxParallelJobs ≤ projCount ws p.id
          · rw [if_pos hcap] at h ⊢
            dsimp only at h ⊢
            rcases ih ws kw h with hmem | hmem
            · exact Or.inl hmem
            · exact Or.inr hmem
          · rw [if_neg hcap] at h ⊢
            dsimp only at h ⊢
            rcases ih _ kw h with hmem | hmem
            · rcases aset_mem kw hmem with hmem | hmem
              · exact Or.inl hmem
              · rw [hmem]
                exact Or.inr (List.mem_cons_self _ _)
            · exact Or.inr (List.mem_cons_of_mem _ hmem)

theorem foldl_start_spec (l : List ExecutionJob) :
    ∀ s0 : OrchState,
      (∀ j ∈ l, rowsPendingFor s0.db j.id) →
      l.Pairwise (fun a b => a.id ≠ b.id) →
      (∀ tid, countActive (l.foldl startWorkerEffects s0).db.jobs tid =
        countActive s0.db.jobs tid) ∧
      (∀ r' ∈ (l.foldl startWorkerEffects s0).db.jobs,
        ∃ r ∈ s0.db.jobs, r'.id = r.id ∧ r'.ticketId = r.ticketId) ∧
      (∀ jid, (∀ j ∈ l, j.id ≠ jid) → rowsPendingFor s0.db jid →
        rowsPendingFor (l.foldl startWorkerEffects s0).db jid) ∧
      (l.foldl startWorkerEffects s0).queue = s0.queue ∧
      (l.foldl startWorkerEffects s0).activeWorkers = s0.activeWorkers ∧
      (l.foldl startWorkerEffects s0).nextJobId = s0.nextJobId ∧
      (l.foldl startWorkerEffects s0).db.projects = s0.db.projects := by
  induction l with
  | nil =>
    intro s0 _ _
    exact ⟨fun _ => rfl, fun r' hr' => ⟨r', hr', rfl, rfl⟩, fun _ _ hp => hp,
      rfl, rfl, rfl, rfl⟩
  | cons j t ih =>
    intro s0 hpend hdist
    rw [List.pairwise_cons] at hdist
    rw [List.foldl_cons]
    set s0' := startWorkerEffects s0 j with hs0'
    have hdb' : s0'.db = s0.db.updateJobStatus j.id .running (some ()) none none := rfl
    have hpend' : ∀ j' ∈ t, rowsPendingFor s0'.db j'.id := by
      intro j' hj'
      rw [hdb']
      exact rowsPendingFor_mark_other (hpend j' (List.mem_cons_of_mem j hj'))
        (hdist.1 j' hj') _ _ _ _
    obtain ⟨hcnt, hmem, hpres, hq, hw, hn, hp⟩ := ih s0' hpend' hdist.2
    refine ⟨?_, ?_, ?_, hq, hw, hn, hp⟩
    · intro tid
      rw [hcnt tid, hdb']
      exact countActive_mark_running s0.db.jobs j.id _ _ _
        (hpend j (List.mem_cons_self j t)) tid
    · intro r' hr'
      obtain ⟨r1, hr1, hid1, htid1⟩ := hmem r' hr'
      rw [hdb'] at hr1
      obtain ⟨r0, hr0, hid0, htid0⟩ := mem_updateJobStatus r1 hr1
      exact ⟨r0, hr0, hid1.trans hid0, htid1.trans htid0⟩
    · intro jid hne hp0
      apply hpres jid (fun j' hj' => hne j' (List.mem_cons_of_mem j hj'))
      rw [hdb']
      exact rowsPendingFor_mark_other hp0 (hne j (List.mem_cons_self j t)) _ _ _ _

theorem tick_storeInv {cfg : OrchConfig} {s : OrchState} (h : StoreInv s) :
    StoreInv (Orchestrator.tick cfg s) ∧
    (∀ tid, countActive (Orchestrator.tick cfg s).db.jobs tid =
      countActive s.db.jobs tid) := by
  unfold Orchestrator.tick
  split
  · exact ⟨h, fun _ => rfl⟩
  · set r := tickGo cfg s.db s.queue s.activeWorkers with hr
    set s' : OrchState := { s with queue := r.1, activeWorkers := r.2.1 } with hs'
    have hsub := tickGo_sublists cfg s.db s.queue s.activeWorkers
    have hcross := tickGo_cross cfg s.db s.queue s.activeWorkers h.queueDistinct
    have hpend : ∀ j ∈ r.2.2, rowsPendingFor s'.db j.id := fun j hj =>
      h.queuePending j (hsub.2.subset hj)
    have hdist : r.2.2.Pairwise (fun a b => a.id ≠ b.id) :=
      h.queueDistinct.sublist hsub.2
    obtain ⟨hcnt, hmem, hpres, hq, hw, hn, _⟩ := foldl_start_spec r.2.2 s' hpend hdist
    constructor
    · constructor
      · intro row hrow
        obtain ⟨r0, hr0, hid, _⟩ := hmem row hrow
        rw [hn, hid]
        exact h.rowsBounded r0 hr0
      · intro j hj
        rw [hq] at hj
        rw [hn]
        exact h.queueBounded j (hsub.1.subset hj)
      · intro kw hkw
        rw [hw] at hkw
        rw [hn]
        rcases tickGo_workers_mem cfg s.db s.queue s.activeWorkers kw hkw with hm | hm
        · exact h.workerBounded kw hm
        · exact h.queueBounded _ (hsub.2.subset hm)
      · rw [hq]
        exact h.queueDistinct.sublist hsub.1
      · intro j hj
        rw [hq] at hj
        exact hpres j.id
          (fun j2 hj2 => fun he => hcross j hj j2 hj2 he.symm)
          (h.queuePending j (hsub.1.subset hj))
      · intro kw hkw j hj
        rw [hw] at hkw
        rw [hq] at hj
        rcases tickGo_workers_mem cfg s.db s.queue s.activeWorkers kw hkw with hm | hm
        · exact h.workerQueueDisjoint kw hm j (hsub.1.subset hj)
        · exact fun he => hcross j hj _ hm he.symm
    · intro tid
      exact hcnt tid

theorem enqueuePlan_fields (cfg : OrchConfig) (s : OrchState) (t : Ticket) (p : Project) :
    Orchestrator.enqueuePlan cfg s t p = Orchestrator.tick cfg
      { db := { projects := s.db.projects,
                tickets := (s.db.updateTicketStatus t.id .planning none none none).tickets,
                jobs := s.db.jobs ++
                  [enqueuedJob s t.id .plan (cfg.logsDir ++ "/" ++ t.id ++ "/plan.log")] },
        queue := s.queue ++
          [enqueuedJob s t.id .plan (cfg.logsDir ++ "/" ++ t.id ++ "/plan.log")],
        activeWorkers := s.activeWorkers,
        runnerProcs := s.runnerProcs,
        watchers := s.watchers,
        events := s.events ++ [.ticketStatus t.id .planning],
        statusWrites := s.statusWrites ++ [(t.id, .planning)],
        nextJobId := s.nextJobId + 1 } := rfl

theorem enqueueExecute_fields (cfg : OrchConfig) (s : OrchState) (t : Ticket)
    (p : Project) :
    Orchestrator.enqueueExecute cfg s t p = Orchestrator.tick cfg
      { db := { projects := s.db.projects,
                tickets := (s.db.updateTicketStatus t.id .queued none none none).tickets,
                jobs := s.db.jobs ++
                  [enqueuedJob s t.id .execute (cfg.logsDir ++ "/" ++ t.id ++ "/execute.log")] },
        queue := s.queue ++
          [enqueuedJob s t.id .execute (cfg.logsDir ++ "/" ++ t.id ++ "/execute.log")],
        activeWorkers := s.activeWorkers,
        runnerProcs := s.runnerProcs,
        watchers := s.watchers,
        events := s.events ++ [.ticketStatus t.id .queued],
        statusWrites := s.statusWrites ++ [(t.id, .queued)],
        nextJobId := s.nextJobId + 1 } := rfl

/-- The pre-tick state of an enqueue preserves the store invariant and adds
exactly one active (pending) row for the enqueued ticket. -/
theorem storeInv_enqueue_pre {s : OrchState} (h : StoreInv s) (tid : String)
    (ph : JobPhase) (lp : String) (tickets' : List (String × Ticket))
    (ev : List OrchEvent) (sw : List (String × TicketStatus))
    (procs : List String) (watch : List Nat) :
    StoreInv { db := { projects := s.db.projects, tickets := tickets',
                       jobs := s.db.jobs ++ [enqueuedJob s tid ph lp] },
               queue := s.queue ++ [enqueuedJob s tid ph lp],
               activeWorkers := s.activeWorkers,
               runnerProcs := procs, watchers := watch,
               events := ev, statusWrites := sw,
               nextJobId := s.nextJobId + 1 } := by
  set j0 := enqueuedJob s tid ph lp with hj0
  have hid : j0.id = s.nextJobId := rfl
  have hst : j0.status = .pending := rfl
  constructor
  · intro r hr
    rcases List.mem_append.mp hr with hr | hr
    · exact Nat.lt_succ_of_lt (h.rowsBounded r hr)
    · rw [List.mem_singleton.mp hr]
      exact Nat.lt_succ_self _
  · intro j hj
    rcases List.mem_append.mp hj with hj | hj
    · exact Nat.lt_succ_of_lt (h.queueBounded j hj)
    · rw [List.mem_singleton.mp hj]
      exact Nat.lt_succ_self _
  · intro kw hkw
    exact Nat.lt_succ_of_lt (h.workerBounded kw hkw)
  · rw [List.pairwise_append]
    refine ⟨h.queueDistinct, List.pairwise_singleton _ _, ?_⟩
    intro a ha b hb
    rw [List.mem_singleton.mp hb]
    exact Nat.ne_of_lt (h.queueBounded a ha)
  · intro j hj
    rcases List.mem_append.mp hj with hj | hj
    · intro r hr hrid
      rcases List.mem_append.mp hr with hr | hr
      · exact h.queuePending j hj r hr hrid
      · rw [List.mem_singleton.mp hr]
        exact hst
    · rw [List.mem_singleton.mp hj]
      intro r hr hrid
      rcases List.mem_append.mp hr with hr | hr
      · exact absurd hrid (Nat.ne_of_lt (h.rowsBounded r hr))
      · rw [List.mem_singleton.mp hr]
        exact hst
  · intro kw hkw j hj
    rcases List.mem_append.mp hj with hj | hj
    · exact h.workerQueueDisjoint kw hkw j hj
    · rw [List.mem_singleton.mp hj]
      exact Nat.ne_of_lt (h.workerBounded kw hkw)

theorem counts_enqueue_pre (s : OrchState) (tid : String) (ph : JobPhase) (lp : String)
    (t' : String) :
    countActive (s.db.jobs ++ [enqueuedJob s tid ph lp]) t' =
      countActive s.db.jobs t' + (if tid = t' then 1 else 0) := by
  rw [countActive_append]
  congr 1
  have : activeRow (enqueuedJob s tid ph lp) t' ↔ tid = t' := by
    unfold activeRow enqueuedJob
    simp
  by_cases hx : tid = t'
  · rw [if_pos (this.mpr hx), if_pos hx]
  · rw [if_neg (fun hc => hx (this.mp hc)), if_neg hx]

theorem pairwise_remove_ne {pre post : List ExecutionJob} {j : ExecutionJob}
    (h : (pre ++ j :: post).Pairwise (fun a b => a.id ≠ b.id)) :
    ∀ x ∈ pre ++ post, j.id ≠ x.id := by
  rw [List.pairwise_append] at h
  intro x hx
  rcases List.mem_append.mp hx with hx | hx
  · exact fun he => (h.2.2 x hx j (List.mem_cons_self _ _)) he.symm
  · exact (List.pairwise_cons.mp h.2.1).1 x hx

theorem remove_sublist (pre post : List ExecutionJob) (j : ExecutionJob) :
    List.Sublist (pre ++ post) (pre ++ j :: post) :=
  List.Sublist.append_left ((List.Sublist.refl post).cons j) pre

theorem cancel_inv {s : OrchState} {tid : String} (h : StoreInv s) :
    StoreInv (Orchestrator.cancel s tid) ∧
    (∀ t', countActive (Orchestrator.cancel s tid).db.jobs t' ≤
      countActive s.db.jobs t') := by
  unfold Orchestrator.cancel
  dsimp only
  cases hrq : (removeFirstJob s.queue tid).1 with
  | none =>
    have hq2 : (removeFirstJob s.queue tid).2 = s.queue := removeFirstJob_none hrq
    dsimp only
    cases hw : alookup s.activeWorkers tid with
    | none =>
      dsimp only
      rw [hq2]
      exact ⟨⟨h.rowsBounded, h.queueBounded, h.workerBounded, h.queueDistinct,
        h.queuePending, h.workerQueueDisjoint⟩, fun t' => Nat.le_refl _⟩
    | some w =>
      dsimp only
      rw [hq2]
      have hwmem : (tid, w) ∈ s.activeWorkers := alookup_mem hw
      refine ⟨⟨?_, ?_, ?_, h.queueDistinct, ?_, ?_⟩, ?_⟩
      · intro r hr
        obtain ⟨r0, hr0, hid, _⟩ := mem_updateJobStatus r hr
        rw [hid]
        exact h.rowsBounded r0 hr0
      · exact h.queueBounded
      · intro kw hkw
        exact h.workerBounded kw (aerase_subset kw hkw)
      · intro j' hj'
        exact rowsPendingFor_mark_other (h.queuePending j' hj')
          (h.workerQueueDisjoint (tid, w) hwmem j' hj') _ _ _ _
      · intro kw hkw j' hj'
        exact h.workerQueueDisjoint kw (aerase_subset kw hkw) j' hj'
      · intro t'
        exact countActive_mark_inactive_le s.db.jobs w.job.id (Or.inr rfl) _ _ _ t'
  | some j =>
    obtain ⟨pre, post, hqeq, hrem⟩ := removeFirstJob_some hrq
    have hsub : List.Sublist (removeFirstJob s.queue tid).2 s.queue := by
      rw [hrem, hqeq]
      exact remove_sublist pre post j
    have hne : ∀ x ∈ (removeFirstJob s.queue tid).2, j.id ≠ x.id := by
      rw [hrem]
      exact pairwise_remove_ne (hqeq ▸ h.queueDistinct)
    dsimp only
    cases hw : alookup s.activeWorkers tid with
    | none =>
      dsimp only
      refine ⟨⟨?_, ?_, ?_, ?_, ?_, ?_⟩, ?_⟩
      · intro r hr
        obtain ⟨r0, hr0, hid, _⟩ := mem_updateJobStatus r hr
        rw [hid]
        exact h.rowsBounded r0 hr0
      · intro j' hj'
        exact h.queueBounded j' (hsub.subset hj')
      · exact h.workerBounded
      · exact h.queueDistinct.sublist hsub
      · intro j' hj'
        exact rowsPendingFor_mark_other
          (h.queuePending j' (hsub.subset hj')) (hne j' hj') _ _ _ _
      · intro kw hkw j' hj'
        exact h.workerQueueDisjoint kw hkw j' (hsub.subset hj')
      · intro t'
        exact countActive_mark_inactive_le s.db.jobs j.id (Or.inr rfl) _ _ _ t'
    | some w =>
      dsimp only
      have hwmem : (tid, w) ∈ s.activeWorkers := alookup_mem hw
      refine ⟨⟨?_, ?_, ?_, ?_, ?_, ?_⟩, ?_⟩
      · intro r hr
        obtain ⟨r1, hr1, hid1, _⟩ := mem_updateJobStatus r hr
        obtain ⟨r0, hr0, hid0, _⟩ := mem_updateJobStatus r1 hr1
        rw [hid1, hid0]
        exact h.rowsBounded r0 hr0
      · intro j' hj'
        exact h.queueBounded j' (hsub.subset hj')
      · intro kw hkw
        exact h.workerBounded kw (aerase_subset kw hkw)
      · exact h.queueDistinct.sublist hsub
      · intro j' hj'
        apply rowsPendingFor_mark_other
          (rowsPendingFor_mark_other
            (h.queuePending j' (hsub.subset hj')) (hne j' hj') _ _ _ _)
          (h.workerQueueDisjoint (tid, w) hwmem j' (hsub.subset hj')) _ _ _ _
      · intro kw hkw j' hj'
        exact h.workerQueueDisjoint kw (aerase_subset kw hkw) j' (hsub.subset hj')
      · intro t'
        calc countActive ((s.db.updateJobStatus j.id .failed none (some ())
              (some (-1))).updateJobStatus w.job.id .failed none (some ())
              (some (-1))).jobs t'
            ≤ countActive (s.db.updateJobStatus j.id .failed none (some ())
              (some (-1))).jobs t' :=
              countActive_mark_inactive_le _ w.job.id (Or.inr rfl) _ _ _ t'
          _ ≤ countActive s.db.jobs t' :=
              countActive_mark_inactive_le s.db.jobs j.id (Or.inr rfl) _ _ _ t'

theorem finishWorker_inv {cfg : OrchConfig} {s : OrchState} {tid : String}
    {succeeded : Bool} {errMsg : Option String} (h : StoreInv s) :
    StoreInv (Orchestrator.finishWorker cfg s tid succeeded errMsg) ∧
    (∀ t', countActive (Orchestrator.finishWorker cfg s tid succeeded errMsg).db.jobs t' ≤
      countActive s.db.jobs t') := by
  unfold Orchestrator.finishWorker
  cases hw : alookup s.activeWorkers tid with
  | none => exact ⟨h, fun _ => Nat.le_refl _⟩
  | some w =>
    dsimp only
    have hwmem : (tid, w) ∈ s.activeWorkers := alookup_mem hw
    have hpre : ∀ (st : JobStatus), st = .completed ∨ st = .failed →
        ∀ (ca : Option Unit) (ec : Option Int) tickets' ev sw procs watch,
        StoreInv { db := { projects := s.db.projects, tickets := tickets',
                           jobs := (s.db.updateJobStatus w.job.id st none ca ec).jobs },
                   queue := s.queue,
                   activeWorkers := aerase s.activeWorkers tid,
                   runnerProcs := procs, watchers := watch,
                   events := ev, statusWrites := sw,
                   nextJobId := s.nextJobId } := by
      intro st hst ca ec tickets' ev sw procs watch
      constructor
      · intro r hr
        obtain ⟨r0, hr0, hid, _⟩ := mem_updateJobStatus r hr
        rw [hid]
        exact h.rowsBounded r0 hr0
      · exact h.queueBounded
      · intro kw hkw
        exact h.workerBounded kw (aerase_subset kw hkw)
      · exact h.queueDistinct
      · intro j' hj'
        exact rowsPendingFor_mark_other (h.queuePending j' hj')
          (h.workerQueueDisjoint (tid, w) hwmem j' hj') _ _ _ _
      · intro kw hkw j' hj'
        exact h.workerQueueDisjoint kw (aerase_subset kw hkw) j' hj'
    cases succeeded with
    | true =>
      rw [if_pos rfl]
      have hinv := hpre .completed (Or.inl rfl) (some ()) (some 0)
        (((s.db.updateJobStatus w.job.id JobStatus.completed none (some ())
          (some 0)).updateTicketStatus tid TicketStatus.completed none (some ())
          none).tickets)
        (s.events ++ [.ticketStatus tid .completed, .jobCompleted tid,
          .jobProgress tid "execute" 100])
        (s.statusWrites ++ [(tid, .completed)])
        (eraseStr s.runnerProcs tid) (eraseNat s.watchers w.job.id)
      have := @tick_storeInv cfg _ hinv
      refine ⟨this.1, ?_⟩
      intro t'
      calc countActive (Orchestrator.tick cfg _).db.jobs t'
          = _ := this.2 t'
        _ ≤ countActive s.db.jobs t' :=
            countActive_mark_inactive_le s.db.jobs w.job.id (Or.inl rfl) _ _ _ t'
    | false =>
      rw [if_neg (by simp)]
      have hinv := hpre .failed (Or.inr rfl) (some ()) (some 1)
        (((s.db.updateJobStatus w.job.id JobStatus.failed none (some ())
          (some 1)).updateTicketStatus tid TicketStatus.failed none (some ())
          (some (errMsg.getD "Unknown error"))).tickets)
        (s.events ++ [.ticketStatus tid .failed,
          .jobFailed tid (errMsg.getD "Unknown error")])
        (s.statusWrites ++ [(tid, .failed)])
        (eraseStr s.runnerProcs tid) (eraseNat s.watchers w.job.id)
      have := @tick_storeInv cfg _ hinv
      refine ⟨this.1, ?_⟩
      intro t'
      calc countActive (Orchestrator.tick cfg _).db.jobs t'
          = _ := this.2 t'
        _ ≤ countActive s.db.jobs t' :=
            countActive_mark_inactive_le s.db.jobs w.job.id (Or.inr rfl) _ _ _ t'

theorem planReview_inv {cfg : OrchConfig} {s : OrchState} {tid : String}
    {plan : String} (h : StoreInv s) :
    StoreInv (Orchestrator.planReviewFinish cfg s tid plan) ∧
    (∀ t', countActive (Orchestrator.planReviewFinish cfg s tid plan).db.jobs t' ≤
      countActive s.db.jobs t') := by
  unfold Orchestrator.planReviewFinish
  cases hw : alookup s.activeWorkers tid with
  | none => exact ⟨h, fun _ => Nat.le_refl _⟩
  | some w =>
    dsimp only
    have hwmem : (tid, w) ∈ s.activeWorkers := alookup_mem hw
    have hinv : StoreInv
        { db := { projects := s.db.projects,
                  tickets := ((s.db.updateTicketPlan tid plan).updateTicketStatus
                    tid TicketStatus.plan_review none none none).tickets,
                  jobs := (s.db.updateJobStatus w.job.id JobStatus.completed none
                    (some ()) (some 0)).jobs },
          queue := s.queue,
          activeWorkers := aerase s.activeWorkers tid,
          runnerProcs := eraseStr s.runnerProcs tid,
          watchers := eraseNat s.watchers w.job.id,
          events := (s.events ++ [OrchEvent.ticketStatus tid
            TicketStatus.plan_review]) ++ [OrchEvent.jobProgress tid "plan" 30],
          statusWrites := s.statusWrites ++ [(tid, TicketStatus.plan_review)],
          nextJobId := s.nextJobId } := by
      constructor
      · intro r hr
        obtain ⟨r0, hr0, hid, _⟩ := mem_updateJobStatus r hr
        rw [hid]
        exact h.rowsBounded r0 hr0
      · exact h.queueBounded
      · intro kw hkw
        exact h.workerBounded kw (aerase_subset kw hkw)
      · exact h.queueDistinct
      · intro j' hj'
        exact rowsPendingFor_mark_other (h.queuePending j' hj')
          (h.workerQueueDisjoint (tid, w) hwmem j' hj') _ _ _ _
      · intro kw hkw j' hj'
        exact h.workerQueueDisjoint kw (aerase_subset kw hkw) j' hj'
    have := @tick_storeInv cfg _ hinv
    refine ⟨this.1, ?_⟩
    intro t'
    calc countActive (Orchestrator.tick cfg _).db.jobs t'
        = _ := this.2 t'
      _ ≤ countActive s.db.jobs t' :=
          countActive_mark_inactive_le s.db.jobs w.job.id (Or.inl rfl) _ _ _ t'

/-- Every guarded-reachable state satisfies the store invariant and has at
most one active job row per ticket. -/
theorem guardedReach_inv {cfg : OrchConfig} {s : OrchState}
    (h : GuardedReach cfg s) : StoreInv s ∧ CountsOK s := by
  induction h with
  | init projects tickets =>
    refine ⟨⟨?_, ?_, ?_, ?_, ?_, ?_⟩, ?_⟩
    · intro r hr; exact absurd hr (List.not_mem_nil r)
    · intro j hj; exact absurd hj (List.not_mem_nil j)
    · intro kw hkw; exact absurd hkw (List.not_mem_nil kw)
    · exact List.Pairwise.nil
    · intro j hj; exact absurd hj (List.not_mem_nil j)
    · intro kw hkw; exact absurd hkw (List.not_mem_nil kw)
    · intro tid; exact Nat.zero_le 1
  | @stepEnqueuePlan s t p hr hg ih =>
    obtain ⟨hsi, hcnt⟩ := ih
    rw [enqueuePlan_fields]
    have hpre := storeInv_enqueue_pre hsi t.id JobPhase.plan
      (cfg.logsDir ++ "/" ++ t.id ++ "/plan.log")
      ((s.db.updateTicketStatus t.id TicketStatus.planning none none none).tickets)
      (s.events ++ [OrchEvent.ticketStatus t.id TicketStatus.planning])
      (s.statusWrites ++ [(t.id, TicketStatus.planning)]) s.runnerProcs s.watchers
    have htick := @tick_storeInv cfg _ hpre
    refine ⟨htick.1, ?_⟩
    intro t'
    have hx := (htick.2 t').trans (counts_enqueue_pre s t.id JobPhase.plan
      (cfg.logsDir ++ "/" ++ t.id ++ "/plan.log") t')
    rw [hx]
    by_cases hy : t.id = t'
    · rw [if_pos hy]
      rw [hy] at hg
      omega
    · rw [if_neg hy]
      have := hcnt t'
      omega
  | @stepEnqueueExecute s t p hr hg ih =>
    obtain ⟨hsi, hcnt⟩ := ih
    rw [enqueueExecute_fields]
    have hpre := storeInv_enqueue_pre hsi t.id JobPhase.execute
      (cfg.logsDir ++ "/" ++ t.id ++ "/execute.log")
      ((s.db.updateTicketStatus t.id TicketStatus.queued none none none).tickets)
      (s.events ++ [OrchEvent.ticketStatus t.id TicketStatus.queued])
      (s.statusWrites ++ [(t.id, TicketStatus.queued)]) s.runnerProcs s.watchers
    have htick := @tick_storeInv cfg _ hpre
    refine ⟨htick.1, ?_⟩
    intro t'
    have hx := (htick.2 t').trans (counts_enqueue_pre s t.id JobPhase.execute
      (cfg.logsDir ++ "/" ++ t.id ++ "/execute.log") t')
    rw [hx]
    by_cases hy : t.id = t'
    · rw [if_pos hy]
      rw [hy] at hg
      omega
    · rw [if_neg hy]
      have := hcnt t'
      omega
  | @stepCancel s tid hr ih =>
    obtain ⟨hsi, hcnt⟩ := ih
    have hc := @cancel_inv s tid hsi
    exact ⟨hc.1, fun t' => Nat.le_trans (hc.2 t') (hcnt t')⟩
  | @stepTick s hr ih =>
    obtain ⟨hsi, hcnt⟩ := ih
    have ht := @tick_storeInv cfg _ hsi
    exact ⟨ht.1, fun t' => Nat.le_trans (Nat.le_of_eq (ht.2 t')) (hcnt t')⟩
  | @stepPlanReview s tid plan hr ih =>
    obtain ⟨hsi, hcnt⟩ := ih
    have hp := @planReview_inv cfg s tid plan hsi
    exact ⟨hp.1, fun t' => Nat.le_trans (hp.2 t') (hcnt t')⟩
  | @stepFinish s tid succeeded errMsg hr ih =>
    obtain ⟨hsi, hcnt⟩ := ih
    have hf := @finishWorker_inv cfg s tid succeeded errMsg hsi
    exact ⟨hf.1, fun t' => Nat.le_trans (hf.2 t') (hcnt t')⟩

/-! ## Cancellation without active work (claim C4 support). -/

theorem removeFirstJob_no_match {q : List ExecutionJob} {tid : String}
    (h : ∀ j ∈ q, j.ticketId ≠ tid) : removeFirstJob q tid = (none, q) := by
  induction q with
  | nil => rfl
  | cons j rest ih =>
    unfold removeFirstJob
    rw [if_neg (h j (List.mem_cons_self j rest))]
    rw [ih (fun j' hj' => h j' (List.mem_cons_of_mem j hj'))]

theorem eraseStr_not_mem {l : List String} {y : String} (h : y ∉ l) :
    eraseStr l y = l := by
  induction l with
  | nil => rfl
  | cons x rest ih =>
    unfold eraseStr
    rw [if_neg (fun he => h (List.mem_cons.mpr (Or.inl (Eq.symm he)))),
      ih (fun hm => h (List.mem_cons_of_mem x hm))]

/-- `tickets.updateStatus` applied twice with the same arguments (and no
`started_at`) equals one application: the row overwrite is idempotent. -/
theorem updateTicketStatus_idem (db : Db) (tid : String) (st : TicketStatus)
    (ca : Option Unit) (err : Option String) :
    (db.updateTicketStatus tid st none ca err).updateTicketStatus tid st none ca err =
      db.updateTicketStatus tid st none ca err := by
  unfold Db.updateTicketStatus
  dsimp only
  congr 1
  rw [List.map_map]
  apply List.map_congr_left
  intro kt _
  dsimp only [Function.comp_apply]
  by_cases hk : kt.1 = tid
  · rw [if_pos hk]
    dsimp only
    rw [if_pos hk]
    rfl
  · rw [if_neg hk, if_neg hk]

/-- When the ticket has no queued job, no active worker and no tracked
subprocess, `cancel` still marks the ticket `failed`, records the status
write and emits the status event; nothing else changes. -/
theorem cancel_no_active {s : OrchState} {tid : String}
    (hq : ∀ j ∈ s.queue, j.ticketId ≠ tid)
    (hw : alookup s.activeWorkers tid = none)
    (hp : tid ∉ s.runnerProcs) :
    Orchestrator.cancel s tid =
      { s with db := s.db.updateTicketStatus tid TicketStatus.failed none none
                 (some "Cancelled by user."),
               statusWrites := s.statusWrites ++ [(tid, TicketStatus.failed)],
               events := s.events ++ [OrchEvent.ticketStatus tid TicketStatus.failed] } := by
  unfold Orchestrator.cancel
  rw [removeFirstJob_no_match hq]
  dsimp only
  rw [eraseStr_not_mem hp, hw]
  rfl

theorem eventStatusTrace_append (a b : List OrchEvent) :
    eventStatusTrace (a ++ b) = eventStatusTrace a ++ eventStatusTrace b :=
  List.filterMap_append a b _

theorem foldl_start_trace (l : List ExecutionJob) :
    ∀ s0 : OrchState,
      (l.foldl startWorkerEffects s0).statusWrites = s0.statusWrites ∧
      eventStatusTrace (l.foldl startWorkerEffects s0).events =
        eventStatusTrace s0.events := by
  induction l with
  | nil => intro s0; exact ⟨rfl, rfl⟩
  | cons j t ih =>
    intro s0
    rw [List.foldl_cons]
    obtain ⟨h1, h2⟩ := ih (startWorkerEffects s0 j)
    refine ⟨h1, h2.trans ?_⟩
    show eventStatusTrace (s0.events ++ [OrchEvent.jobProgress j.ticketId
      (phaseLabel j.phase) (phaseStartPct j.phase)]) = eventStatusTrace s0.events
    rw [eventStatusTrace_append]
    simp [eventStatusTrace]

theorem tick_trace {cfg : OrchConfig} {s : OrchState} (h : StatusEventPaired s) :
    StatusEventPaired (Orchestrator.tick cfg s) := by
  unfold Orchestrator.tick
  split
  · exact h
  · obtain ⟨h1, h2⟩ := foldl_start_trace
      (tickGo cfg s.db s.queue s.activeWorkers).2.2
      { s with queue := (tickGo cfg s.db s.queue s.activeWorkers).1,
               activeWorkers := (tickGo cfg s.db s.queue s.activeWorkers).2.1 }
    show ((tickGo cfg s.db s.queue s.activeWorkers).2.2.foldl startWorkerEffects
        { s with queue := (tickGo cfg s.db s.queue s.activeWorkers).1,
                 activeWorkers :=
                   (tickGo cfg s.db s.queue s.activeWorkers).2.1 }).statusWrites =
      eventStatusTrace ((tickGo cfg s.db s.queue s.activeWorkers).2.2.foldl
        startWorkerEffects
        { s with queue := (tickGo cfg s.db s.queue s.activeWorkers).1,
                 activeWorkers :=
                   (tickGo cfg s.db s.queue s.activeWorkers).2.1 }).events
    rw [h1, h2]
    exact h

theorem cancel_sw_ev (s : OrchState) (tid : String) :
    (Orchestrator.cancel s tid).statusWrites =
      s.statusWrites ++ [(tid, TicketStatus.failed)] ∧
    (Orchestrator.cancel s tid).events =
      s.events ++ [OrchEvent.ticketStatus tid TicketStatus.failed] := by
  unfold Orchestrator.cancel
  dsimp only
  cases (removeFirstJob s.queue tid).1 <;> dsimp only <;>
    cases alookup s.activeWorkers tid <;> exact ⟨rfl, rfl⟩

theorem applyOp_trace {cfg : OrchConfig} {s : OrchState} {op : Op}
    (h : StatusEventPaired s) : StatusEventPaired (applyOp cfg s op) := by
  cases op with
  | enqueuePlan t p =>
    show StatusEventPaired (Orchestrator.enqueuePlan cfg s t p)
    rw [enqueuePlan_fields]
    apply tick_trace
    show s.statusWrites ++ [(t.id, TicketStatus.planning)] =
      eventStatusTrace (s.events ++ [OrchEvent.ticketStatus t.id TicketStatus.planning])
    rw [eventStatusTrace_append, h]
    rfl
  | enqueueExecute t p =>
    show StatusEventPaired (Orchestrator.enqueueExecute cfg s t p)
    rw [enqueueExecute_fields]
    apply tick_trace
    show s.statusWrites ++ [(t.id, TicketStatus.queued)] =
      eventStatusTrace (s.events ++ [OrchEvent.ticketStatus t.id TicketStatus.queued])
    rw [eventStatusTrace_append, h]
    rfl
  | cancel tid =>
    obtain ⟨h1, h2⟩ := cancel_sw_ev s tid
    show (Orchestrator.cancel s tid).statusWrites =
      eventStatusTrace (Orchestrator.cancel s tid).events
    rw [h1, h2, eventStatusTrace_append, h]
    rfl
  | tick => exact tick_trace h
  | planReview tid plan =>
    show StatusEventPaired (Orchestrator.planReviewFinish cfg s tid plan)
    unfold Orchestrator.planReviewFinish
    cases alookup s.activeWorkers tid with
    | none => exact h
    | some w =>
      dsimp only
      apply tick_trace
      show s.statusWrites ++ [(tid, TicketStatus.plan_review)] =
        eventStatusTrace ((s.events ++
          [OrchEvent.ticketStatus tid TicketStatus.plan_review]) ++
          [OrchEvent.jobProgress tid "plan" 30])
      rw [eventStatusTrace_append, eventStatusTrace_append, h]
      simp [eventStatusTrace]
  | finishSuccess tid =>
    show StatusEventPaired (Orchestrator.finishWorker cfg s tid true none)
    unfold Orchestrator.finishWorker
    cases alookup s.activeWorkers tid with
    | none => exact h
    | some w =>
      dsimp only
      rw [if_pos rfl]
      apply tick_trace
      show s.statusWrites ++ [(tid, TicketStatus.completed)] =
        eventStatusTrace (s.events ++
          [OrchEvent.ticketStatus tid TicketStatus.completed,
           OrchEvent.jobCompleted tid, OrchEvent.jobProgress tid "execute" 100])
      rw [eventStatusTrace_append, h]
      rfl
  | finishFailure tid msg =>
    show StatusEventPaired (Orchestrator.finishWorker cfg s tid false (some msg))
    unfold Orchestrator.finishWorker
    cases alookup s.activeWorkers tid with
    | none => exact h
    | some w =>
      dsimp only
      rw [if_neg (by simp)]
      apply tick_trace
      show s.statusWrites ++ [(tid, TicketStatus.failed)] =
        eventStatusTrace (s.events ++
          [OrchEvent.ticketStatus tid TicketStatus.failed,
           OrchEvent.jobFailed tid ((some msg).getD "Unknown error")])
      rw [eventStatusTrace_append, h]
      rfl

theorem runOps_trace (cfg : OrchConfig) (ops : List Op) :
    ∀ {s : OrchState}, StatusEventPaired s → StatusEventPaired (runOps cfg s ops) := by
  induction ops with
  | nil => intro s h; exact h
  | cons op rest ih =>
    intro s h
    show StatusEventPaired (runOps cfg (applyOp cfg s op) rest)
    exact ih (applyOp_trace h)

theorem phase_updateJobStatus {db : Db} (jid : Nat) (st : JobStatus)
    (sa ca : Option Unit) (ec : Option Int)
    (h : ∀ r ∈ db.jobs, r.phase ≠ JobPhase.fix) :
    ∀ r ∈ (db.updateJobStatus jid st sa ca ec).jobs, r.phase ≠ JobPhase.fix := by
  intro r hr
  obtain ⟨r0, hr0, hf⟩ := List.mem_map.mp hr
  rw [← hf]
  try dsimp only
  by_cases hid : r0.id = jid
  · rw [if_pos hid]
    exact h r0 hr0
  · rw [if_neg hid]
    exact h r0 hr0

theorem phase_foldl_start (l : List ExecutionJob) :
    ∀ s0 : OrchState, (∀ r ∈ s0.db.jobs, r.phase ≠ JobPhase.fix) →
      ∀ r ∈ (l.foldl startWorkerEffects s0).db.jobs, r.phase ≠ JobPhase.fix := by
  induction l with
  | nil => intro s0 h; exact h
  | cons j t ih =>
    intro s0 h
    rw [List.foldl_cons]
    exact ih (startWorkerEffects s0 j)
      (phase_updateJobStatus j.id JobStatus.running (some ()) none none h)

theorem phase_tick {cfg : OrchConfig} {s : OrchState} (h : NoFixRows s) :
    NoFixRows (Orchestrator.tick cfg s) := by
  unfold Orchestrator.tick
  split
  · exact h
  · exact phase_foldl_start _ _ h

theorem phase_applyOp {cfg : OrchConfig} {s : OrchState} {op : Op}
    (h : NoFixRows s) : NoFixRows (applyOp cfg s op) := by
  cases op with
  | enqueuePlan t p =>
    show NoFixRows (Orchestrator.enqueuePlan cfg s t p)
    rw [enqueuePlan_fields]
    apply phase_tick
    intro r hr
    rcases List.mem_append.mp hr with hr | hr
    · exact h r hr
    · rw [List.mem_singleton.mp hr]
      exact fun hc => JobPhase.noConfusion hc
  | enqueueExecute t p =>
    show NoFixRows (Orchestrator.enqueueExecute cfg s t p)
    rw [enqueueExecute_fields]
    apply phase_tick
    intro r hr
    rcases List.mem_append.mp hr with hr | hr
    · exact h r hr
    · rw [List.mem_singleton.mp hr]
      exact fun hc => JobPhase.noConfusion hc
  | cancel tid =>
    show NoFixRows (Orchestrator.cancel s tid)
    unfold Orchestrator.cancel
    dsimp only
    cases (removeFirstJob s.queue tid).1 with
    | none =>
      dsimp only
      cases alookup s.activeWorkers tid with
      | none => exact h
      | some w =>
        exact phase_updateJobStatus w.job.id JobStatus.failed none (some ())
          (some (-1)) h
    | some j =>
      dsimp only
      cases alookup s.activeWorkers tid with
      | none =>
        exact phase_updateJobStatus j.id JobStatus.failed none (some ())
          (some (-1)) h
      | some w =>
        exact phase_updateJobStatus w.job.id JobStatus.failed none (some ()) (some (-1))
          (phase_updateJobStatus j.id JobStatus.failed none (some ()) (some (-1)) h)
  | tick => exact phase_tick h
  | planReview tid plan =>
    show NoFixRows (Orchestrator.planReviewFinish cfg s tid plan)
    unfold Orchestrator.planReviewFinish
    cases alookup s.activeWorkers tid with
    | none => exact h
    | some w =>
      dsimp only
      apply phase_tick
      exact phase_updateJobStatus w.job.id JobStatus.completed none (some ()) (some 0) h
  | finishSuccess tid =>
    show NoFixRows (Orchestrator.finishWorker cfg s tid true none)
    unfold Orchestrator.finishWorker
    cases alookup s.activeWorkers tid with
    | none => exact h
    | some w =>
      dsimp only
      rw [if_pos rfl]
      apply phase_tick
      exact phase_updateJobStatus w.job.id JobStatus.completed none (some ()) (some 0) h
  | finishFailure tid msg =>
    show NoFixRows (Orchestrator.finishWorker cfg s tid false (some msg))
    unfold Orchestrator.finishWorker
    cases alookup s.activeWorkers tid with
    | none => exact h
    | some w =>
      dsimp only
      rw [if_neg (by simp)]
      apply phase_tick
      exact phase_updateJobStatus w.job.id JobStatus.failed none (some ()) (some 1) h

theorem phase_runOps (cfg : OrchConfig) (ops : List Op) :
    ∀ {s : OrchState}, NoFixRows s → NoFixRows (runOps cfg s ops) := by
  induction ops with
  | nil => intro s h; exact h
  | cons op rest ih =>
    intro s h
    show NoFixRows (runOps cfg (applyOp cfg s op) rest)
    exact ih (phase_applyOp h)

/-! ## Claim theorems. -/

/-- Claim C1: from a fresh store, under any sequence of enqueues, ticks,
cancellations, plan reviews and worker completions, the active-worker pool
never exceeds the global cap and no project ever exceeds its per-project
cap; and the scheduler skips a job whose project is at its cap in place,
leaving it at its queue position while scanning on. -/
theorem C1_concurrency_caps (cfg : OrchConfig)
    (projects : List (String × Project)) (tickets : List (String × Ticket))
    (ops : List Op) (hwf : ProjectsWF projects) :
    SchedCapsOK cfg (runOps cfg (initState projects tickets) ops) ∧
    (∀ (db : Db) (j : ExecutionJob) (rest : List ExecutionJob)
       (ws : List (String × ActiveWorker)) (t : Ticket) (p : Project),
       ws.length < cfg.maxWorkers →
       db.findTicket j.ticketId = some t →
       db.findProject t.projectId = some p →
       p.settings.maxParallelJobs ≤ projCount ws p.id →
       tickGo cfg db (j :: rest) ws =
         (j :: (tickGo cfg db rest ws).1, (tickGo cfg db rest ws).2.1,
          (tickGo cfg db rest ws).2.2)) := by
  constructor
  · exact runOps_caps ops hwf ⟨Nat.zero_le _, fun pid p _ => Nat.zero_le _⟩
  · intro db j rest ws t p hlen ht hp hcap
    exact tickGo_skip hlen ht hp hcap

theorem C1_caps_witness :
    ProjectsWF [("p1", demoProject)] ∧
    SchedCapsOK demoCfg (runOps demoCfg
      (initState [("p1", demoProject)] [("t1", demoTicket)])
      [Op.enqueueExecute demoTicket demoProject]) :=
  ⟨by unfold ProjectsWF; decide,
   (C1_concurrency_caps demoCfg [("p1", demoProject)] [("t1", demoTicket)]
     [Op.enqueueExecute demoTicket demoProject] (by unfold ProjectsWF; decide)).1⟩

/-- Claim C2 (amended): with a configured test command that always fails
and an agent that always exits 0, the execute phase performs exactly
`maxRetries + 1` agent invocations, increments the *job row's* retry
counter once per attempt (so it ends at `maxRetries + 1`), terminates with
a `failed` write whose message carries `maxRetries` and the last test
output, and performs *no* metadata write: `setMetadata` is only reached on
the success path, so `metadata.retryCount` is never recorded for a failed
ticket. -/
theorem C2_retry_loop (cfg : OrchConfig) (p : Project) (t : Ticket)
    (jobId : Nat) (env : ExecEnv) (cmd : String)
    (hagent : ∀ n, env.agentExit n = 0)
    (htest : ∀ n, (env.testRun n).1 ≠ 0)
    (hcmd : effectiveCommand p.settings.testCommand env.stackTestCommand = some cmd) :
    (runExecutePhase cfg p t jobId env).invocations = cfg.maxRetries + 1 ∧
    (runExecutePhase cfg p t jobId env).retryIncrements =
      List.replicate (cfg.maxRetries + 1) jobId ∧
    (runExecutePhase cfg p t jobId env).writes =
      [(TicketStatus.in_progress, none)] ++
      List.replicate (cfg.maxRetries + 1) (TicketStatus.testing, none) ++
      [(TicketStatus.failed, some ("Tests still failing after " ++
        toString cfg.maxRetries ++ " retries.\n\nLast error:\n" ++
        (env.testRun cfg.maxRetries).2))] ∧
    (runExecutePhase cfg p t jobId env).metadataWrite = none := by
  rw [runExecutePhase_allfail cfg p t jobId env cmd hagent htest hcmd]
  exact ⟨rfl, rfl, rfl, rfl⟩

theorem C2_retry_witness :
    (runExecutePhase demoCfg demoProjectTest demoTicket 7 demoEnvFail).invocations
        = 3 ∧
    (runExecutePhase demoCfg demoProjectTest demoTicket 7
      demoEnvFail).retryIncrements = List.replicate 3 7 ∧
    (runExecutePhase demoCfg demoProjectTest demoTicket 7
      demoEnvFail).metadataWrite = none :=
  ⟨(C2_retry_loop demoCfg demoProjectTest demoTicket 7 demoEnvFail "exit 1"
      (fun _ => rfl) (fun _ => one_ne_zero) rfl).1,
   (C2_retry_loop demoCfg demoProjectTest demoTicket 7 demoEnvFail "exit 1"
      (fun _ => rfl) (fun _ => one_ne_zero) rfl).2.1,
   (C2_retry_loop demoCfg demoProjectTest demoTicket 7 demoEnvFail "exit 1"
      (fun _ => rfl) (fun _ => one_ne_zero) rfl).2.2.2⟩

/-- Claim C2 counterexample: in the exact scenario of the claim
(`testCommand = "exit 1"`, `maxRetries = 2`, all attempts fail) the ticket
metadata is *not* written at all, so `metadata.retryCount = 2` never
holds. -/
theorem C2_retry_counterexample :
    ¬ ∃ m : TicketMetadata,
      (runExecutePhase demoCfg demoProjectTest demoTicket 7
        demoEnvFail).metadataWrite = some m ∧ m.retryCount = some 2 := by
  rintro ⟨m, hm, -⟩
  have hn : (runExecutePhase demoCfg demoProjectTest demoTicket 7
      demoEnvFail).metadataWrite = none := rfl
  rw [hn] at hm
  exact Option.noConfusion hm

/-- Claim C3 (amended): *when every enqueue is guarded* — invoked only for
a ticket that currently has no pending or running job row, which is how
the UI drives the orchestrator — every reachable state has at most one
active job row per ticket.  The enqueue operations themselves perform no
such check (`jobs.create` always inserts a fresh `pending` row). -/
theorem C3_one_active_guarded {cfg : OrchConfig} {s : OrchState}
    (h : GuardedReach cfg s) : CountsOK s :=
  (guardedReach_inv h).2

theorem C3_guarded_witness :
    CountsOK (Orchestrator.enqueueExecute demoCfg
      (initState [("p1", demoProject)] [("t1", demoTicket)])
      demoTicket demoProject) :=
  C3_one_active_guarded (GuardedReach.stepEnqueueExecute demoTicket demoProject
    (GuardedReach.init [("p1", demoProject)] [("t1", demoTicket)]) (by decide))

/-- Claim C3 counterexample: calling `enqueueExecute` twice for the same
ticket (with no worker capacity, so both jobs stay queued) leaves two
active (`pending`) job rows for the ticket: nothing in `enqueue` or
`jobs.create` prevents the second active job. -/
theorem C3_two_active_counterexample :
    ¬ CountsOK (runOps demoCfgZero
      (initState [("p1", demoProject)] [("t1", demoTicket)])
      [Op.enqueueExecute demoTicket demoProject,
       Op.enqueueExecute demoTicket demoProject]) := by
  intro h
  exact absurd (h "t1") (by decide)

/-- Claim C4 (amended): when the ticket has no queued job, no active worker
and no tracked subprocess, `cancel` is *not* a no-op: it unconditionally
sets the ticket to `failed` with the cancellation message, records the
status write and emits the `ticket:status` event, while leaving the queue,
the workers, the job rows and the subprocess/watcher tables unchanged.
Repeating the call leaves the store (`db`) unchanged — the failure
overwrite is idempotent — but each call appends another event. -/
theorem C4_cancel_behavior {s : OrchState} {tid : String}
    (hq : ∀ j ∈ s.queue, j.ticketId ≠ tid)
    (hw : alookup s.activeWorkers tid = none)
    (hp : tid ∉ s.runnerProcs) :
    Orchestrator.cancel s tid =
      { s with db := s.db.updateTicketStatus tid TicketStatus.failed none none
                 (some "Cancelled by user."),
               statusWrites := s.statusWrites ++ [(tid, TicketStatus.failed)],
               events := s.events ++ [OrchEvent.ticketStatus tid TicketStatus.failed] } ∧
    (Orchestrator.cancel (Orchestrator.cancel s tid) tid).db =
      (Orchestrator.cancel s tid).db := by
  have h1 := cancel_no_active hq hw hp
  refine ⟨h1, ?_⟩
  have hq' : ∀ j ∈ (Orchestrator.cancel s tid).queue, j.ticketId ≠ tid := by
    rw [h1]; exact hq
  have hw' : alookup (Orchestrator.cancel s tid).activeWorkers tid = none := by
    rw [h1]; exact hw
  have hp' : tid ∉ (Orchestrator.cancel s tid).runnerProcs := by
    rw [h1]; exact hp
  have h2 := cancel_no_active hq' hw' hp'
  rw [h2, h1]
  exact updateTicketStatus_idem s.db tid TicketStatus.failed none
    (some "Cancelled by user.")

theorem C4_cancel_witness :
    Orchestrator.cancel (initState [] []) "t1" =
      { initState [] [] with
          db := (initState [] []).db.updateTicketStatus "t1" TicketStatus.failed
            none none (some "Cancelled by user."),
          statusWrites := [("t1", TicketStatus.failed)],
          events := [OrchEvent.ticketStatus "t1" TicketStatus.failed] } ∧
    (Orchestrator.cancel (Orchestrator.cancel (initState [] []) "t1") "t1").db =
      (Orchestrator.cancel (initState [] []) "t1").db :=
  C4_cancel_behavior (by decide) (by decide) (by decide)

/-- Claim C4 counterexample: cancelling a ticket with no queued job and no
running worker is not a no-op — the state changes (the ticket is marked
`failed` and a `ticket:status` event is emitted). -/
theorem C4_cancel_counterexample :
    (initState [] []).queue = [] ∧
    alookup (initState [] []).activeWorkers "t1" = none ∧
    Orchestrator.cancel (initState [] []) "t1" ≠ initState [] [] := by
  refine ⟨rfl, rfl, ?_⟩
  intro h
  have h2 : (Orchestrator.cancel (initState [] []) "t1").events.length =
      (initState [] []).events.length := by rw [h]
  exact absurd h2 (by decide)

/-- Claim C5 (amended): along every sequence of *orchestrator* operations
(enqueue, tick, cancel, plan review, worker success/failure) every ticket
status write is paired, in order, with an emitted `ticket:status` event
carrying the same ticket id and status.  The pairing does not extend to
the startup crash-recovery path or the merge command (see the
counterexample). -/
theorem C5_status_events (cfg : OrchConfig) (projects : List (String × Project))
    (tickets : List (String × Ticket)) (ops : List Op) :
    StatusEventPaired (runOps cfg (initState projects tickets) ops) :=
  runOps_trace cfg ops rfl

/-- Claim C5 counterexample: both `handleMerge` (sets `merged`) and
`recoverInterruptedJobs` (sets `failed` at startup) write a ticket status
with no paired `ticket:status` event, so the status history cannot be
reconstructed from the event stream alone. -/
theorem C5_unpaired_counterexample :
    ¬ StatusEventPaired (handleMerge
      (initState [("p1", demoProject)] [("t1", demoTicketMergeable)]) "t1") ∧
    ¬ StatusEventPaired (recoverInterruptedJobs
      (initState [("p1", demoProject)] [("t1", demoTicketInterrupted)])) := by
  constructor
  · unfold StatusEventPaired
    decide
  · unfold StatusEventPaired
    decide

/-- Claim C6 (amended): the tailer's offset always sits at a line boundary
of the watched file and the emitted lines are exactly the *non-empty*
complete lines of the committed prefix, in order — so no partial line and
no duplicate is ever emitted, but empty complete lines are skipped
(`if (line)`), not emitted.  After a poll the committed prefix carries
every complete line of the file, so a line completed by an append is
emitted by the next poll exactly once. -/
theorem C6_log_tailer :
    (∀ evs : List LogEv,
      (runLog evs).offset ≤ (runLog evs).content.length ∧
      lastPart ((runLog evs).content.take (runLog evs).offset) = [] ∧
      (runLog evs).emitted =
        (termLines ((runLog evs).content.take (runLog evs).offset)).filter
          (fun l => l ≠ [])) ∧
    (∀ s : LogState, LogInv s →
      termLines ((logStep s LogEv.poll).content.take (logStep s LogEv.poll).offset) =
        termLines s.content) :=
  ⟨logInv_run, fun _ h => poll_commits_all_lines h⟩

/-- Claim C6 counterexample: after appending `"a\n\nb\n"` the complete
lines are `a`, `` (empty) and `b`, but the poll emits only `a` and `b`:
the empty complete line is skipped, so the poll does not emit exactly the
newly appended complete lines. -/
theorem C6_empty_line_counterexample :
    (runLog [LogEv.app ("a\n\nb\n".data), LogEv.poll]).emitted ≠
      termLines ("a\n\nb\n".data) := by
  decide

/-- Claim C7 (amended): for every chunk sequence, the runner delivers to
`onLine`, in order, exactly the *non-empty* parts of the newline split of
the concatenated stream (complete lines while streaming, the trailing
unterminated line flushed once at close; empty lines are skipped by
`if (line && options.onLine)`), and the resolved output buffer is the
verbatim concatenation of all chunks. -/
theorem C7_runner_lines (chunks : List (List Char)) :
    (runnerRun chunks).1 = (splitNl chunks.flatten).filter (fun l => l ≠ []) ∧
    (runnerRun chunks).2 = chunks.flatten :=
  runnerRun_delivers chunks

/-- Claim C7 counterexample: the stream `"a\n\nb"` has complete lines `a`
and `` (empty) and trailing line `b`, but the runner delivers only
`a` and `b`: empty complete lines are skipped, so not every complete line
of the stream is delivered. -/
theorem C7_empty_line_counterexample :
    (runnerRun [("a\n\nb".data)]).1 ≠
      termLines ("a\n\nb".data) ++ [lastPart ("a\n\nb".data)] := by
  decide

/-- Claim C8: the worktree path is a pure function of the worktree root
and the ticket id, and `createWorktree` is idempotent: a second call for
the same ticket returns the same path and leaves the git state (worktree
and branch lists) unchanged. -/
theorem C8_worktree_idempotent (fs : GitFs) (root tid slug db bp : List Char) :
    (createWorktree fs root tid slug db bp).1 = worktreePathOf root tid ∧
    createWorktree (createWorktree fs root tid slug db bp).2 root tid slug db bp =
      createWorktree fs root tid slug db bp := by
  unfold createWorktree
  dsimp only
  by_cases hmem : worktreePathOf root tid ∈ fs.worktrees
  · rw [if_pos hmem]
    refine ⟨rfl, ?_⟩
    dsimp only
    rw [if_pos hmem]
  · rw [if_neg hmem]
    refine ⟨rfl, ?_⟩
    dsimp only
    rw [if_pos (List.mem_cons_self _ _)]

/-- Claim C9 (amended): rendering is idempotent whenever the rendered
output contains no conditional open tag and no substitution token — in
particular for ordinary contexts whose values do not themselves contain
template markers.  (Without that proviso it fails: see the
counterexample.) -/
theorem C9_render_idempotent {template : List Char} {ctx : TemplateContext}
    (h1 : hasSub (renderTemplate template ctx) (openTagOf ("CONTEXT_FILES".data)) =
      false)
    (h2 : hasSub (renderTemplate template ctx) (openTagOf ("ATTACHMENTS".data)) =
      false)
    (h3 : ∀ tv ∈ substitutions ctx,
      hasSub (renderTemplate template ctx) tv.1 = false) :
    renderTemplate (renderTemplate template ctx) ctx =
      renderTemplate template ctx := by
  show trimChars ((substitutions ctx).foldl (fun acc tv => replaceAll acc tv.1 tv.2)
      (renderCondBlock
        (renderCondBlock (renderTemplate template ctx) ("CONTEXT_FILES".data)
          (truthyOptStr ctx.contextFiles))
        ("ATTACHMENTS".data) (truthyOptStr ctx.attachmentDescriptions))) =
    renderTemplate template ctx
  rw [renderCondBlock_of_not_hasSub h1, renderCondBlock_of_not_hasSub h2,
    foldl_replaceAll_of_not_hasSub h3]
  show trimChars (trimChars ((substitutions ctx).foldl
      (fun acc tv => replaceAll acc tv.1 tv.2)
      (renderCondBlock
        (renderCondBlock template ("CONTEXT_FILES".data)
          (truthyOptStr ctx.contextFiles))
        ("ATTACHMENTS".data) (truthyOptStr ctx.attachmentDescriptions)))) =
    renderTemplate template ctx
  exact trimChars_idem _

theorem C9_render_witness :
    renderTemplate (renderTemplate demoTemplate demoCtx) demoCtx =
      renderTemplate demoTemplate demoCtx :=
  C9_render_idempotent (by decide) (by decide) (by decide)

/-- Claim C9 counterexample: when a substitution value contains a token
that was substituted earlier in the fixed order (here `PROJECT_NAME`'s
value contains the `TICKET_TITLE` token), the first render leaves that
token in the output and the second render replaces it, so rendering twice
is not idempotent. -/
theorem C9_render_counterexample :
    renderTemplate (renderTemplate tokProjectName demoCtxLoop) demoCtxLoop ≠
      renderTemplate tokProjectName demoCtxLoop := by
  decide

/-- Claim C10: although the job phase type admits `fix`, no reachable
store ever holds a job row with phase `fix` (every created row has phase
`plan` or `execute`), and every `incrementRetry` performed by the execute
phase's test-fix loop targets the original job row's id — retries reuse
the job record instead of creating a `fix` job. -/
theorem C10_no_fix_jobs (cfg : OrchConfig) (projects : List (String × Project))
    (tickets : List (String × Ticket)) (ops : List Op) :
    NoFixRows (runOps cfg (initState projects tickets) ops) ∧
    (∀ (mr jid : Nat) (agent : Nat → Int) (tc : Option (Nat → Int × String))
       (fuel rc inv tests : Nat),
       (execLoop mr jid agent tc fuel rc inv tests).retryIncrements.all
         (fun x => x == jid) = true) :=
  ⟨phase_runOps cfg ops (fun r hr => absurd hr (List.not_mem_nil r)),
   execLoop_increments_all⟩

end AutoDev
